import Mathlib

/-!
Verification of the minemeld-core flow-node framework against its
natural-language specification.

The development shallowly embeds the three source modules:

* `minemeld/ft/basepoller.py` — the polling miner engine
  (`IndicatorStatus`, `_polling_loop` branches, `_age_out_run`,
  `_sudden_death`, `_collect_garbage`, `_compare_attributes`,
  `_calc_age_out`);
* `minemeld/ft/ipop.py` — the IPv4 range aggregator
  (`MWUpdate`, `_calc_ipranges`, `_range_from_indicator`,
  `_endpoints_from_range`, `filtered_withdraw`);
* `minemeld/ft/taxii.py` — the pull-feed driver (`_decode_observable`).

Python dictionaries are embedded as association lists over a value type
`Val`; code that can raise is embedded in the `Option` monad, `none`
standing for a raised exception.  External collaborators that are not
part of the sources (the indexed table `table.Table`, the interval store
`st.ST`, `utils.RESERVED_ATTRIBUTES`, `utils.parse_age_out`) are
modelled from the specification's description of their interfaces; each
such definition carries a doc comment saying so.
-/

namespace Minemeld

/-- Embedded Python value: integer, string, list of strings, or `None`.
`none` models the Python constant `None`; a missing dictionary key is
modelled by `Option.none` at the lookup level instead.  The values the
claims exercise (timestamps, confidences, type tags, source lists) all
fall in these shapes. -/
inductive Val : Type where
  | n : Int → Val
  | s : String → Val
  | list : List String → Val
  | none : Val
deriving DecidableEq, Repr

/-- A Python dictionary with string keys, embedded as an association
list (first binding of a key wins on lookup; assignment overwrites in
place). -/
abbrev Record := List (String × Val)

/-- Lookup of a key in an association list (dict `get` without
default). -/
def alget {α : Type} : List (String × α) → String → Option α
  | [], _ => Option.none
  | (k', v) :: rest, k => if k' = k then some v else alget rest k

/-- Dict assignment `d[k] = v`: replaces the first binding of `k` in
place, or appends a new binding. -/
def alput {α : Type} : List (String × α) → String → α → List (String × α)
  | [], k, v => [(k, v)]
  | (k', v') :: rest, k, v =>
      if k' = k then (k, v) :: rest else (k', v') :: alput rest k v

/-- Dict deletion: removes every binding of the key (on a well-formed
dict there is at most one). -/
def aldel {α : Type} (l : List (String × α)) (k : String) : List (String × α) :=
  l.filter (fun kv => decide (kv.1 ≠ k))

/-- Python `d.update(other)`: assign every binding of `other` into `d`,
in order. -/
def alupdate {α : Type} (l : List (String × α)) (other : List (String × α)) :
    List (String × α) :=
  other.foldl (fun acc kv => alput acc kv.1 kv.2) l

/-- Python `d.get(k, None)`: lookup with `None` default. -/
def pyGet (r : Record) (k : String) : Val :=
  (alget r k).getD Val.none

/-- The keys of an association list. -/
def alkeys {α : Type} (l : List (String × α)) : List String :=
  l.map Prod.fst

theorem alget_alput_self {α : Type} (l : List (String × α)) (k : String) (v : α) :
    alget (alput l k v) k = some v := by
  induction l with
  | nil => simp [alget, alput]
  | cons hd tl ih =>
    by_cases h : hd.1 = k
    · simp [alput, alget, h]
    · simp only [alput, h, if_false]
      cases hd with
      | mk k' v' =>
        simp only at h
        simp [alget, h, ih]

theorem alget_alput_ne {α : Type} (l : List (String × α)) (k k' : String) (v : α)
    (h : k ≠ k') : alget (alput l k v) k' = alget l k' := by
  induction l with
  | nil => simp [alget, alput, h]
  | cons hd tl ih =>
    by_cases hh : hd.1 = k
    · cases hd with
      | mk a b =>
        simp only at hh
        subst hh
        simp [alput, alget, h]
    · cases hd with
      | mk a b =>
        simp only at hh
        simp only [alput, hh, if_false]
        by_cases h2 : a = k'
        · simp [alget, h2]
        · simp [alget, h2, ih]

theorem mem_alkeys_alput {α : Type} (l : List (String × α)) (k x : String) (v : α) :
    x ∈ alkeys (alput l k v) ↔ x = k ∨ x ∈ alkeys l := by
  induction l with
  | nil => simp [alput, alkeys]
  | cons hd tl ih =>
    obtain ⟨a, b⟩ := hd
    by_cases h : a = k
    · subst h
      simp [alput, alkeys]
    · simp only [alput, h, if_false]
      simp only [alkeys, List.map_cons, List.mem_cons] at ih ⊢
      rw [ih]
      tauto

theorem alkeys_nodup_alput {α : Type} (l : List (String × α)) (k : String) (v : α)
    (h : (alkeys l).Nodup) : (alkeys (alput l k v)).Nodup := by
  induction l with
  | nil => simp [alput, alkeys]
  | cons hd tl ih =>
    obtain ⟨a, b⟩ := hd
    simp only [alkeys, List.map_cons, List.nodup_cons] at h
    by_cases hk : a = k
    · subst hk
      simpa [alput, alkeys] using h
    · simp only [alput, hk, if_false]
      simp only [alkeys, List.map_cons, List.nodup_cons]
      refine ⟨fun hc => ?_, ih h.2⟩
      rcases (mem_alkeys_alput tl k a v).mp hc with h1 | h1
      · exact hk h1
      · exact h.1 h1

theorem alget_of_not_mem_keys {α : Type} (l : List (String × α)) (k : String)
    (h : k ∉ alkeys l) : alget l k = Option.none := by
  induction l with
  | nil => simp [alget]
  | cons hd tl ih =>
    obtain ⟨a, b⟩ := hd
    simp only [alkeys, List.map_cons, List.mem_cons] at h
    push_neg at h
    simp only [alget]
    rw [if_neg (fun hc => h.1 hc.symm)]
    exact ih (by simpa [alkeys] using h.2)

theorem alget_alupdate_not_mem {α : Type} (l : List (String × α))
    (other : List (String × α)) (k : String) (h : k ∉ alkeys other) :
    alget (alupdate l other) k = alget l k := by
  induction other generalizing l with
  | nil => simp [alupdate]
  | cons hd tl ih =>
    simp only [alkeys, List.map_cons, List.mem_cons] at h
    push_neg at h
    simp only [alupdate, List.foldl_cons]
    rw [show (tl.foldl (fun acc kv => alput acc kv.1 kv.2) (alput l hd.1 hd.2))
          = alupdate (alput l hd.1 hd.2) tl from rfl]
    rw [ih (alput l hd.1 hd.2) (by simpa [alkeys] using h.2)]
    exact alget_alput_ne _ _ _ _ (fun hc => h.1 hc.symm)

theorem alget_alupdate_mem {α : Type} (l : List (String × α))
    (other : List (String × α)) (k : String) (v : α)
    (hnd : (alkeys other).Nodup) (hm : (k, v) ∈ other) :
    alget (alupdate l other) k = some v := by
  induction other generalizing l with
  | nil => simp at hm
  | cons hd tl ih =>
    simp only [alkeys, List.map_cons, List.nodup_cons] at hnd
    simp only [alupdate, List.foldl_cons]
    rw [show (tl.foldl (fun acc kv => alput acc kv.1 kv.2) (alput l hd.1 hd.2))
          = alupdate (alput l hd.1 hd.2) tl from rfl]
    rcases List.mem_cons.mp hm with h | h
    · subst h
      rw [alget_alupdate_not_mem _ _ _ (by simpa [alkeys] using hnd.1)]
      exact alget_alput_self _ _ _
    · exact ih _ hnd.2 h

theorem alget_eq_some_iff_mem {α : Type} (l : List (String × α))
    (hnd : (alkeys l).Nodup) (k : String) (v : α) :
    alget l k = some v ↔ (k, v) ∈ l := by
  induction l with
  | nil => simp [alget]
  | cons hd tl ih =>
    obtain ⟨a, b⟩ := hd
    simp only [alkeys, List.map_cons, List.nodup_cons] at hnd
    by_cases h : a = k
    · subst h
      rw [show alget ((a, b) :: tl) a = some b by simp [alget]]
      simp only [List.mem_cons, Option.some_inj]
      constructor
      · intro h1
        exact Or.inl (by rw [h1])
      · rintro (h1 | h1)
        · injection h1 with h2 h3
          exact h3.symm
        · exact absurd (List.mem_map_of_mem Prod.fst h1) hnd.1
    · simp only [alget, if_neg h, List.mem_cons, ih hnd.2]
      constructor
      · exact Or.inr
      · rintro (h1 | h1)
        · exact absurd (congrArg Prod.fst h1).symm h
        · exact h1

theorem alget_aldel_self {α : Type} (l : List (String × α)) (k : String) :
    alget (aldel l k) k = Option.none := by
  induction l with
  | nil => simp [aldel, alget]
  | cons hd tl ih =>
    obtain ⟨a, b⟩ := hd
    by_cases h : a = k
    · simpa [aldel, List.filter_cons, h] using ih
    · simpa [aldel, List.filter_cons, alget, h] using ih

theorem alget_aldel_ne {α : Type} (l : List (String × α)) (k k' : String)
    (h : k ≠ k') : alget (aldel l k) k' = alget l k' := by
  induction l with
  | nil => simp [aldel]
  | cons hd tl ih =>
    obtain ⟨a, b⟩ := hd
    by_cases hh : a = k
    · subst hh
      simpa [aldel, List.filter_cons, alget, fun hc : a = k' => h hc] using ih
    · by_cases h2 : a = k'
      · have hkk : ¬(k' = k) := fun hc => h hc.symm
        simp [aldel, List.filter_cons, alget, hh, h2, hkk]
      · simpa [aldel, List.filter_cons, alget, hh, h2] using ih

/-! ## basepoller.py: data model and operations -/

/-- The miner's indicator table, keyed by indicator string.  Modelled
from the spec: `table.Table` is an external keyed store with secondary
index scans; it is embedded as an association list, and an index query
with `to_key = b` returns exactly the entries whose record carries the
indexed attribute as an integer `≤ b`. -/
abbrev Table := List (String × Record)

/-- `_MAX_AGE_OUT = ((1 << 32) - 1) * 1000` from `basepoller.py`. -/
def MAX_AGE_OUT : Int := (2 ^ 32 - 1) * 1000

/-- Base attribute of an age-out expression.  Modelled from the spec:
`utils.parse_age_out` is not in the sources; the spec fixes
`base ∈ {first_seen, last_seen}` with default `first_seen`. -/
inductive AgeBase : Type where
  | firstSeen : AgeBase
  | lastSeen : AgeBase
deriving DecidableEq, Repr

/-- The record key named by an age-out base attribute. -/
def AgeBase.key : AgeBase → String
  | .firstSeen => "first_seen"
  | .lastSeen => "last_seen"

/-- A parsed age-out expression `{base, offset}`, offset in
milliseconds.  Modelled from the spec: the result shape of
`utils.parse_age_out`. -/
structure AgeSel : Type where
  base : AgeBase
  offset : Int
deriving DecidableEq, Repr

/-- The miner's age-out configuration after `configure`: check cadence,
the sudden-death flag, the parsed `default` expression (`none` for
null, meaning never age out), and parsed per-type expressions.
`configure` skips the keys already in the dictionary, so `perType`
never contains `interval`, `sudden_death` or `default`. -/
structure AgeOutPolicy : Type where
  interval : Int
  suddenDeathFlag : Bool
  default : Option AgeSel
  perType : List (String × Option AgeSel)

/-- Evaluate a parsed age-out expression against a record:
`record[base] + offset`, or `_MAX_AGE_OUT` for a null expression.
`Option.none` embeds the `KeyError`/`TypeError` raised when the base
attribute is missing or not an integer. -/
def evalAgeSel (sel : Option AgeSel) (v : Record) : Option Int :=
  match sel with
  | Option.none => some MAX_AGE_OUT
  | some sel =>
    match alget v sel.base.key with
    | some (Val.n b) => some (b + sel.offset)
    | _ => Option.none

/-- `BasePollerFT._calc_age_out`: select the expression from the
record's `type` attribute (`default` when `type` is absent, `None`, an
integer, or has no per-type entry) and evaluate it.  `Option.none`
embeds the raising paths of the source: a list-valued `type` is
unhashable in `t not in self.age_out`, and a `type` equal to the scalar
config keys `interval`/`sudden_death` selects a non-subscriptable
value. -/
def calcAgeOut (pol : AgeOutPolicy) (v : Record) : Option Int :=
  match alget v "type" with
  | Option.none => evalAgeSel pol.default v
  | some Val.none => evalAgeSel pol.default v
  | some (Val.n _) => evalAgeSel pol.default v
  | some (Val.list _) => Option.none
  | some (Val.s t) =>
      if t = "interval" ∨ t = "sudden_death" then Option.none
      else if t = "default" then evalAgeSel pol.default v
      else
        match alget pol.perType t with
        | some sel => evalAgeSel sel v
        | Option.none => evalAgeSel pol.default v

/-- `IndicatorStatus`: the 4-bit classifier state
(`D_MASK = 1`, `F_MASK = 2`, `A_MASK = 4`, `W_MASK = 8`).
`Option.none` embeds the `KeyError` raised when an existing record
lacks an integer `_age_out` or `_last_run`. -/
def indicatorState (t : Table) (indicator : String) (now thr : Int) :
    Option Nat :=
  match alget t indicator with
  | Option.none => some 0
  | some cv =>
    match alget cv "_age_out", alget cv "_last_run" with
    | some (Val.n a), some (Val.n lr) =>
        some (1 + (if a < now then 4 else 0) + (if thr ≤ lr then 2 else 0) +
          (if pyGet cv "_withdrawn" ≠ Val.none then 8 else 0))
    | _, _ => Option.none

/-- Events emitted downstream. -/
inductive Emit : Type where
  | update : String → Record → Emit
  | withdraw : String → Emit
deriving DecidableEq, Repr

/-- `BasePollerFT._compare_attributes`: `true` iff for every observed
key `k`, `oa.get(k, None) == na[k]`. -/
def compareAttributes (oa na : Record) : Bool :=
  na.all (fun kv => decide (pyGet oa kv.1 = kv.2))

/-- `in_feed_threshold`: `last_run`, or `now - interval*1000` on the
first run (lines 342-344 of `basepoller.py`). -/
def inFeedThreshold (lastRun : Option Int) (interval now : Int) : Int :=
  match lastRun with
  | some lr => lr
  | Option.none => now - interval * 1000

/-- One `(indicator, attributes)` step of `BasePollerFT._polling_loop`
(lines 336-402): classify the indicator, apply the per-state action,
and return the updated table with the emitted events.  `Option.none`
embeds a raised exception, which aborts the polling pass. -/
def processObservation (template : Record) (sourceName : String)
    (pol : AgeOutPolicy) (interval : Int) (lastRun : Option Int)
    (t : Table) (indicator : String) (attrs : Record) (now : Int) :
    Option (Table × List Emit) :=
  let thr := inFeedThreshold lastRun interval now
  (indicatorState t indicator now thr).bind (fun st =>
    if st = 0 ∨ st = 1 ∨ st = 5 ∨ st = 13 ∨ st = 9 then
      -- NX / NFNANW / NFXANW / NFXAXW / NFNAXW: treat as fresh
      let v0 := alput (alput (alput (alput template
        "sources" (Val.list [sourceName]))
        "last_seen" (Val.n now))
        "first_seen" (Val.n now))
        "_last_run" (Val.n now)
      let v1 := alupdate v0 attrs
      (calcAgeOut pol v1).map (fun ao =>
        let v := alput v1 "_age_out" (Val.n ao)
        (alput t indicator v, [Emit.update indicator v]))
    else if st = 3 then
      -- XFNANW: present and in-feed
      (alget t indicator).bind (fun cv =>
        let eq := compareAttributes cv attrs
        let v1 := alupdate (alput cv "_last_run" (Val.n now)) attrs
        (calcAgeOut pol v1).map (fun ao =>
          let v := alput v1 "_age_out" (Val.n ao)
          (alput t indicator v,
            if eq then [] else [Emit.update indicator v])))
    else if st = 7 then
      -- XFXANW: only refresh _last_run
      (alget t indicator).map (fun cv =>
        (alput t indicator (alput cv "_last_run" (Val.n now)), []))
    else if st = 15 ∨ st = 11 then
      -- XFXAXW / XFNAXW: refresh _last_run and _withdrawn
      (alget t indicator).map (fun cv =>
        (alput t indicator
          (alput (alput cv "_last_run" (Val.n now)) "_withdrawn" (Val.n now)),
          []))
    else
      -- unhandled state: logged as an error, item skipped
      some (t, []))

/-- Membership of a record in the `_age_out` index scan bounded by
`now - 1`. -/
def agedB (v : Record) (now : Int) : Bool :=
  match alget v "_age_out" with
  | some (Val.n a) => decide (a ≤ now - 1)
  | _ => false

/-- `v.get('_withdrawn', None) is not None`. -/
def withdrawnB (v : Record) : Bool :=
  decide (pyGet v "_withdrawn" ≠ Val.none)

/-- The per-record body of the `_age_out_run` scan: skip records whose
`_withdrawn` is already set, otherwise emit `withdraw` and write
`_withdrawn = now` back. -/
def ageOutStep (now : Int) (acc : Table × List String)
    (e : String × Record) : Table × List String :=
  if withdrawnB e.2 then acc
  else (alput acc.1 e.1 (alput e.2 "_withdrawn" (Val.n now)),
    acc.2 ++ [e.1])

/-- One pass of `BasePollerFT._age_out_run` at time `now`: scan the
`_age_out` index up to `now - 1` and apply `ageOutStep` to every hit.
Returns the new table and the withdrawn indicators in emission
order. -/
def ageOutRun (t : Table) (now : Int) : Table × List String :=
  (t.filter (fun e => agedB e.2 now)).foldl (ageOutStep now) (t, [])

/-- Membership of a record in the `_last_run` index scan bounded by
`b`. -/
def lastRunLeB (v : Record) (b : Int) : Bool :=
  match alget v "_last_run" with
  | some (Val.n lr) => decide (lr ≤ b)
  | _ => false

/-- The per-record body of the `_sudden_death` scan: force
`_age_out = lr - 1` and write back. -/
def suddenDeathStep (lr : Int) (acc : Table) (e : String × Record) :
    Table :=
  alput acc e.1 (alput e.2 "_age_out" (Val.n (lr - 1)))

/-- `BasePollerFT._sudden_death`: no-op when `last_run` is null;
otherwise scan the `_last_run` index up to `last_run` and force
`_age_out = last_run - 1` on every hit. -/
def suddenDeath (t : Table) (lastRun : Option Int) : Table :=
  match lastRun with
  | Option.none => t
  | some lr =>
    (t.filter (fun e => lastRunLeB e.2 lr)).foldl (suddenDeathStep lr) t

/-- Membership of a record in the `_withdrawn` index scan bounded by
`b`. -/
def withdrawnLeB (v : Record) (b : Int) : Bool :=
  match alget v "_withdrawn" with
  | some (Val.n w) => decide (w ≤ b)
  | _ => false

/-- `BasePollerFT._collect_garbage`: delete every record whose
`_withdrawn` index key is `≤ t0 - 1`. -/
def collectGarbage (t : Table) (t0 : Int) : Table :=
  ((t.filter (fun e => withdrawnLeB e.2 (t0 - 1))).map Prod.fst).foldl
    aldel t

theorem alget_foldl_aldel {α : Type} (ks : List String)
    (t : List (String × α)) (k : String) :
    alget (ks.foldl aldel t) k =
      if k ∈ ks then Option.none else alget t k := by
  induction ks generalizing t with
  | nil => simp
  | cons hd tl ih =>
    simp only [List.foldl_cons, ih, List.mem_cons]
    by_cases h1 : k ∈ tl
    · simp [h1]
    · by_cases h2 : k = hd
      · subst h2
        simp [h1, alget_aldel_self]
      · simp [h1, h2, alget_aldel_ne _ _ _ (fun hc => h2 hc.symm)]

theorem ageOutStep_skip (now : Int) (acc : Table × List String)
    (e : String × Record) (h : withdrawnB e.2 = true) :
    ageOutStep now acc e = acc := by
  simp [ageOutStep, h]

theorem ageOutStep_go (now : Int) (acc : Table × List String)
    (e : String × Record) (h : withdrawnB e.2 = false) :
    ageOutStep now acc e =
      (alput acc.1 e.1 (alput e.2 "_withdrawn" (Val.n now)),
        acc.2 ++ [e.1]) := by
  simp [ageOutStep, h]

theorem ageOutFold_snd (now : Int) (S : List (String × Record)) :
    ∀ t0 es, (S.foldl (ageOutStep now) (t0, es)).2 =
      es ++ (S.filter (fun e => !withdrawnB e.2)).map Prod.fst := by
  induction S with
  | nil => simp
  | cons e rest ih =>
    intro t0 es
    cases h : withdrawnB e.2
    · rw [List.foldl_cons, ageOutStep_go now _ _ h, ih, List.filter_cons]
      simp [h]
    · rw [List.foldl_cons, ageOutStep_skip now _ _ h, ih, List.filter_cons]
      simp [h]

theorem ageOutFold_fst_not_mem (now : Int) (S : List (String × Record))
    (k : String) (h : k ∉ S.map Prod.fst) :
    ∀ t0 es, alget ((S.foldl (ageOutStep now) (t0, es)).1) k = alget t0 k := by
  induction S with
  | nil => simp
  | cons e rest ih =>
    intro t0 es
    simp only [List.map_cons, List.mem_cons] at h
    push_neg at h
    cases hw : withdrawnB e.2
    · rw [List.foldl_cons, ageOutStep_go now _ _ hw, ih h.2]
      exact alget_alput_ne _ _ _ _ h.1.symm
    · rw [List.foldl_cons, ageOutStep_skip now _ _ hw]
      exact ih h.2 t0 es

theorem ageOutFold_fst_hit (now : Int) (S : List (String × Record))
    (k : String) (v : Record) (hnd : (S.map Prod.fst).Nodup)
    (hm : (k, v) ∈ S) (hw : withdrawnB v = false) :
    ∀ t0 es, alget ((S.foldl (ageOutStep now) (t0, es)).1) k =
      some (alput v "_withdrawn" (Val.n now)) := by
  induction S with
  | nil => simp at hm
  | cons e rest ih =>
    intro t0 es
    simp only [List.map_cons, List.nodup_cons] at hnd
    rcases List.mem_cons.mp hm with h1 | h1
    · subst h1
      rw [List.foldl_cons, ageOutStep_go now _ _ hw,
        ageOutFold_fst_not_mem now rest k (by simpa using hnd.1)]
      exact alget_alput_self _ _ _
    · cases hw2 : withdrawnB e.2
      · rw [List.foldl_cons, ageOutStep_go now _ _ hw2]
        exact ih hnd.2 h1 _ _
      · rw [List.foldl_cons, ageOutStep_skip now _ _ hw2]
        exact ih hnd.2 h1 t0 es

theorem ageOutFold_fst_skip (now : Int) (S : List (String × Record))
    (k : String) (v : Record) (hnd : (S.map Prod.fst).Nodup)
    (hm : (k, v) ∈ S) (hw : withdrawnB v = true) :
    ∀ t0 es, alget ((S.foldl (ageOutStep now) (t0, es)).1) k = alget t0 k := by
  induction S with
  | nil => simp at hm
  | cons e rest ih =>
    intro t0 es
    simp only [List.map_cons, List.nodup_cons] at hnd
    rcases List.mem_cons.mp hm with h1 | h1
    · subst h1
      rw [List.foldl_cons, ageOutStep_skip now _ _ hw]
      exact ageOutFold_fst_not_mem now rest k (by simpa using hnd.1) t0 es
    · cases hw2 : withdrawnB e.2
      · have hne : e.1 ≠ k := by
          intro hc
          refine hnd.1 ?_
          rw [hc]
          exact List.mem_map.mpr ⟨(k, v), h1, rfl⟩
        rw [List.foldl_cons, ageOutStep_go now _ _ hw2, ih hnd.2 h1]
        exact alget_alput_ne _ _ _ _ hne
      · rw [List.foldl_cons, ageOutStep_skip now _ _ hw2]
        exact ih hnd.2 h1 t0 es

theorem ageOutFold_keys_nodup (now : Int) (S : List (String × Record)) :
    ∀ t0 es, (alkeys t0).Nodup →
      (alkeys ((S.foldl (ageOutStep now) (t0, es)).1)).Nodup := by
  induction S with
  | nil => exact fun t0 es h => h
  | cons e rest ih =>
    intro t0 es h
    cases hw : withdrawnB e.2
    · rw [List.foldl_cons, ageOutStep_go now _ _ hw]
      exact ih _ _ (alkeys_nodup_alput _ _ _ h)
    · rw [List.foldl_cons, ageOutStep_skip now _ _ hw]
      exact ih t0 es h

theorem sdFold_not_mem (lr : Int) (S : List (String × Record))
    (k : String) (h : k ∉ S.map Prod.fst) :
    ∀ t0, alget (S.foldl (suddenDeathStep lr) t0) k = alget t0 k := by
  induction S with
  | nil => simp
  | cons e rest ih =>
    intro t0
    simp only [List.map_cons, List.mem_cons] at h
    push_neg at h
    simp only [List.foldl_cons, suddenDeathStep]
    rw [ih h.2]
    exact alget_alput_ne _ _ _ _ h.1.symm

theorem sdFold_hit (lr : Int) (S : List (String × Record))
    (k : String) (v : Record) (hnd : (S.map Prod.fst).Nodup)
    (hm : (k, v) ∈ S) :
    ∀ t0, alget (S.foldl (suddenDeathStep lr) t0) k =
      some (alput v "_age_out" (Val.n (lr - 1))) := by
  induction S with
  | nil => simp at hm
  | cons e rest ih =>
    intro t0
    simp only [List.map_cons, List.nodup_cons] at hnd
    rcases List.mem_cons.mp hm with h1 | h1
    · subst h1
      simp only [List.foldl_cons, suddenDeathStep]
      rw [sdFold_not_mem lr rest k (by simpa using hnd.1)]
      exact alget_alput_self _ _ _
    · simp only [List.foldl_cons, suddenDeathStep]
      exact ih hnd.2 h1 _

/-- Keys of the filtered snapshot of a table with no duplicate keys are
themselves duplicate-free. -/
theorem filter_keys_nodup (t : Table) (p : String × Record → Bool)
    (hnd : (alkeys t).Nodup) : ((t.filter p).map Prod.fst).Nodup :=
  List.Nodup.sublist (List.Sublist.map Prod.fst (List.filter_sublist t)) hnd

/-- Characterization of the withdraw emissions of one age-out pass. -/
theorem ageOutRun_snd_iff (t : Table) (now : Int)
    (hnd : (alkeys t).Nodup) (i : String) :
    i ∈ (ageOutRun t now).2 ↔
      ∃ v, alget t i = some v ∧ agedB v now = true ∧ withdrawnB v = false := by
  unfold ageOutRun
  rw [ageOutFold_snd]
  simp only [List.nil_append, List.mem_map, List.mem_filter,
    Bool.not_eq_true']
  constructor
  · rintro ⟨⟨i', v⟩, ⟨⟨hm, haged⟩, hw⟩, rfl⟩
    exact ⟨v, (alget_eq_some_iff_mem t hnd i' v).mpr hm, haged, hw⟩
  · rintro ⟨v, hget, haged, hw⟩
    exact ⟨(i, v), ⟨⟨(alget_eq_some_iff_mem t hnd i v).mp hget, haged⟩, hw⟩, rfl⟩

/-- Table effect of one age-out pass on a record it withdraws. -/
theorem ageOutRun_fst_hit (t : Table) (now : Int)
    (hnd : (alkeys t).Nodup) (i : String) (v : Record)
    (hget : alget t i = some v) (haged : agedB v now = true)
    (hw : withdrawnB v = false) :
    alget (ageOutRun t now).1 i = some (alput v "_withdrawn" (Val.n now)) := by
  unfold ageOutRun
  refine ageOutFold_fst_hit now _ i v (filter_keys_nodup t _ hnd) ?_ hw t []
  exact List.mem_filter.mpr ⟨(alget_eq_some_iff_mem t hnd i v).mp hget, haged⟩

/-- Table effect of one age-out pass on a record it does not
withdraw. -/
theorem ageOutRun_fst_miss (t : Table) (now : Int)
    (hnd : (alkeys t).Nodup) (i : String) (v : Record)
    (hget : alget t i = some v)
    (hmiss : agedB v now = false ∨ withdrawnB v = true) :
    alget (ageOutRun t now).1 i = some v := by
  unfold ageOutRun
  rcases hmiss with hmiss | hmiss
  · rw [ageOutFold_fst_not_mem now _ i ?_ t []]
    · exact hget
    · intro hc
      rcases List.mem_map.mp hc with ⟨⟨i', v'⟩, hm', rfl⟩
      have hm2 := List.mem_filter.mp hm'
      have hv : v' = v := by
        have h3 := (alget_eq_some_iff_mem t hnd i' v').mpr hm2.1
        rw [hget] at h3
        exact (Option.some_inj.mp h3).symm
      subst hv
      exact absurd (hmiss.symm.trans hm2.2) (by decide)
  · by_cases haged : agedB v now = true
    · rw [ageOutFold_fst_skip now _ i v (filter_keys_nodup t _ hnd) ?_ hmiss t []]
      · exact hget
      · exact List.mem_filter.mpr
          ⟨(alget_eq_some_iff_mem t hnd i v).mp hget, haged⟩
    · rw [ageOutFold_fst_not_mem now _ i ?_ t []]
      · exact hget
      · intro hc
        rcases List.mem_map.mp hc with ⟨⟨i', v'⟩, hm', rfl⟩
        have hm2 := List.mem_filter.mp hm'
        have hv : v' = v := by
          have h3 := (alget_eq_some_iff_mem t hnd i' v').mpr hm2.1
          rw [hget] at h3
          exact (Option.some_inj.mp h3).symm
        subst hv
        exact haged hm2.2

/-- One age-out pass does not introduce duplicate table keys. -/
theorem ageOutRun_keys_nodup (t : Table) (now : Int)
    (hnd : (alkeys t).Nodup) : (alkeys (ageOutRun t now).1).Nodup :=
  ageOutFold_keys_nodup now _ t [] hnd

theorem withdrawnB_after_mark (v : Record) (now : Int) :
    withdrawnB (alput v "_withdrawn" (Val.n now)) = true := by
  simp [withdrawnB, pyGet, alget_alput_self]

/-! ## Claim theorems about the polling miner engine -/

/-- C3: in every age-out pass at time `now`, the worker emits
`withdraw i` and sets `_withdrawn = now` for exactly the records with
`_age_out ≤ now - 1` whose `_withdrawn` is unset; already-withdrawn
records are skipped and left unchanged, and an indicator withdrawn by
one pass is never withdrawn again by a later pass over the resulting
table. -/
theorem ageOut_run_withdraws_exactly_once (t : Table) (now now2 : Int)
    (hnd : (alkeys t).Nodup) :
    (∀ i, i ∈ (ageOutRun t now).2 ↔
        ∃ v, alget t i = some v ∧ agedB v now = true ∧
          withdrawnB v = false) ∧
    (∀ i v, alget t i = some v → agedB v now = true →
        withdrawnB v = false →
        alget (ageOutRun t now).1 i =
          some (alput v "_withdrawn" (Val.n now))) ∧
    (∀ i v, alget t i = some v →
        agedB v now = false ∨ withdrawnB v = true →
        alget (ageOutRun t now).1 i = some v) ∧
    (∀ i, i ∈ (ageOutRun t now).2 →
        i ∉ (ageOutRun (ageOutRun t now).1 now2).2) := by
  refine ⟨ageOutRun_snd_iff t now hnd,
    fun i v hget haged hw => ageOutRun_fst_hit t now hnd i v hget haged hw,
    fun i v hget hmiss => ageOutRun_fst_miss t now hnd i v hget hmiss,
    fun i hi hi2 => ?_⟩
  obtain ⟨v, hget, haged, hw⟩ := (ageOutRun_snd_iff t now hnd i).mp hi
  have hget2 := ageOutRun_fst_hit t now hnd i v hget haged hw
  have hnd2 := ageOutRun_keys_nodup t now hnd
  obtain ⟨v2, hget3, _, hw3⟩ :=
    (ageOutRun_snd_iff (ageOutRun t now).1 now2 hnd2 i).mp hi2
  rw [hget2] at hget3
  have hv2 : v2 = alput v "_withdrawn" (Val.n now) :=
    (Option.some_inj.mp hget3).symm
  rw [hv2, withdrawnB_after_mark] at hw3
  exact absurd hw3 (by decide)

/-- C3 witness: on a one-record table whose record aged out at 500,
a pass at time 1000 emits the withdraw. -/
theorem ageOut_run_withdraws_exactly_once_witness :
    "X" ∈ (ageOutRun [("X", [("_age_out", Val.n 500)])] 1000).2 :=
  ((ageOut_run_withdraws_exactly_once
      [("X", [("_age_out", Val.n 500)])] 1000 2000 (by decide)).1 "X").mpr
    ⟨[("_age_out", Val.n 500)], by decide, by decide, by decide⟩

/-- C5: with sudden death enabled and `last_run = lr` non-null, the
sudden-death scan forces `_age_out = lr - 1` on every record with
`_last_run ≤ lr` and leaves every other record (and in particular its
`_age_out`) unchanged. -/
theorem sudden_death_marks_missed (t : Table) (lr : Int)
    (hnd : (alkeys t).Nodup) :
    (∀ i v, alget t i = some v → lastRunLeB v lr = true →
        alget (suddenDeath t (some lr)) i =
          some (alput v "_age_out" (Val.n (lr - 1))) ∧
        alget (alput v "_age_out" (Val.n (lr - 1))) "_age_out" =
          some (Val.n (lr - 1))) ∧
    (∀ i v, alget t i = some v → lastRunLeB v lr = false →
        alget (suddenDeath t (some lr)) i = some v) := by
  constructor
  · intro i v hget hle
    constructor
    · unfold suddenDeath
      refine sdFold_hit lr _ i v (filter_keys_nodup t _ hnd) ?_ t
      exact List.mem_filter.mpr
        ⟨(alget_eq_some_iff_mem t hnd i v).mp hget, hle⟩
    · exact alget_alput_self _ _ _
  · intro i v hget hle
    unfold suddenDeath
    rw [sdFold_not_mem lr _ i ?_ t]
    · exact hget
    · intro hc
      rcases List.mem_map.mp hc with ⟨⟨i2, v2⟩, hm2, rfl⟩
      have hm3 := List.mem_filter.mp hm2
      have hv : v2 = v := by
        have h3 := (alget_eq_some_iff_mem t hnd i2 v2).mpr hm3.1
        rw [hget] at h3
        exact (Option.some_inj.mp h3).symm
      subst hv
      exact absurd (hle.symm.trans hm3.2) (by decide)

/-- C5 witness: a record last seen at run 400 with `last_run = 500`
gets `_age_out = 499`; a record seen at 600 is untouched. -/
theorem sudden_death_marks_missed_witness :
    alget (suddenDeath
        [("a", [("_last_run", Val.n 400)]), ("b", [("_last_run", Val.n 600)])]
        (some 500)) "a" =
      some (alput [("_last_run", Val.n 400)] "_age_out" (Val.n 499)) :=
  (((sudden_death_marks_missed
      [("a", [("_last_run", Val.n 400)]), ("b", [("_last_run", Val.n 600)])]
      500 (by decide)).1 "a" [("_last_run", Val.n 400)]
      (by decide) (by decide)).1)

/-- C6: the garbage-collection step of a pass that started at `t0`
deletes exactly the records with `_withdrawn ≤ t0 - 1`; a record with
`_withdrawn = w` is deleted by a pass at `t1` iff `t1` is strictly
after `w`, so it survives every pass at time `≤ w`. -/
theorem collect_garbage_deletes_exactly (t : Table) (t0 : Int)
    (hnd : (alkeys t).Nodup) :
    (∀ i v, alget t i = some v →
        alget (collectGarbage t t0) i =
          if withdrawnLeB v (t0 - 1) then Option.none else some v) ∧
    (∀ i v w t1, alget t i = some v →
        alget v "_withdrawn" = some (Val.n w) →
        (alget (collectGarbage t t1) i = Option.none ↔ w < t1)) := by
  have hmain : ∀ (t1 : Int) i v, alget t i = some v →
      alget (collectGarbage t t1) i =
        if withdrawnLeB v (t1 - 1) then Option.none else some v := by
    intro t1 i v hget
    unfold collectGarbage
    rw [alget_foldl_aldel]
    by_cases hin :
        i ∈ (t.filter (fun e => withdrawnLeB e.2 (t1 - 1))).map Prod.fst
    · rcases List.mem_map.mp hin with ⟨⟨i2, v2⟩, hm2, rfl⟩
      have hm3 := List.mem_filter.mp hm2
      have hv : v2 = v := by
        have h3 := (alget_eq_some_iff_mem t hnd i2 v2).mpr hm3.1
        rw [hget] at h3
        exact (Option.some_inj.mp h3).symm
      subst hv
      rw [if_pos hin, if_pos hm3.2]
    · rw [if_neg hin]
      have hw : withdrawnLeB v (t1 - 1) = false := by
        by_contra hc
        refine hin (List.mem_map.mpr ⟨(i, v), ?_, rfl⟩)
        refine List.mem_filter.mpr
          ⟨(alget_eq_some_iff_mem t hnd i v).mp hget, ?_⟩
        exact Bool.not_eq_false _ ▸ (Bool.of_not_eq_false hc)
      rw [hw]
      simp [hget]
  refine ⟨hmain t0, fun i v w t1 hget hw => ?_⟩
  have hb : withdrawnLeB v (t1 - 1) = decide (w ≤ t1 - 1) := by
    unfold withdrawnLeB
    rw [hw]
  rw [hmain t1 i v hget, hb]
  by_cases hlt : w ≤ t1 - 1
  · have hd : decide (w ≤ t1 - 1) = true := by simp [hlt]
    rw [hd, if_pos rfl]
    constructor
    · intro _
      omega
    · intro _
      rfl
  · have hd : decide (w ≤ t1 - 1) = false := by simp [hlt]
    rw [hd, if_neg (by simp)]
    constructor
    · intro hc
      exact absurd hc (by simp)
    · intro hc
      exact absurd (by omega : w ≤ t1 - 1) hlt

/-- C6 witness: a record withdrawn at 100 is kept by a pass at `t0 =
100` and deleted by a pass at `t0 = 101`. -/
theorem collect_garbage_deletes_exactly_witness :
    alget (collectGarbage [("X", [("_withdrawn", Val.n 100)])] 101) "X" =
      Option.none :=
  ((collect_garbage_deletes_exactly [("X", [("_withdrawn", Val.n 100)])] 101
      (by decide)).2 "X" [("_withdrawn", Val.n 100)] 100 101
      (by decide) (by decide)).mpr (by decide)

theorem evalAgeSel_alput_ne (sel : Option AgeSel) (v : Record) (k : String)
    (x : Val) (h2 : k ≠ "first_seen") (h3 : k ≠ "last_seen") :
    evalAgeSel sel (alput v k x) = evalAgeSel sel v := by
  cases sel with
  | none => rfl
  | some s =>
    obtain ⟨b, off⟩ := s
    cases b
    · unfold evalAgeSel
      simp only [AgeBase.key]
      rw [alget_alput_ne v k "first_seen" x h2]
    · unfold evalAgeSel
      simp only [AgeBase.key]
      rw [alget_alput_ne v k "last_seen" x h3]

theorem calcAgeOut_alput_ne (pol : AgeOutPolicy) (v : Record) (k : String)
    (x : Val) (h1 : k ≠ "type") (h2 : k ≠ "first_seen")
    (h3 : k ≠ "last_seen") :
    calcAgeOut pol (alput v k x) = calcAgeOut pol v := by
  unfold calcAgeOut
  rw [alget_alput_ne v k "type" x h1]
  cases hv : alget v "type" with
  | none => exact evalAgeSel_alput_ne _ _ _ _ h2 h3
  | some w =>
    cases w with
    | n m => exact evalAgeSel_alput_ne _ _ _ _ h2 h3
    | none => exact evalAgeSel_alput_ne _ _ _ _ h2 h3
    | list l => rfl
    | s ts =>
      dsimp only
      by_cases ht : ts = "interval" ∨ ts = "sudden_death"
      · rw [if_pos ht, if_pos ht]
      · rw [if_neg ht, if_neg ht]
        by_cases ht2 : ts = "default"
        · rw [if_pos ht2, if_pos ht2]
          exact evalAgeSel_alput_ne _ _ _ _ h2 h3
        · rw [if_neg ht2, if_neg ht2]
          cases alget pol.perType ts with
          | none => exact evalAgeSel_alput_ne _ _ _ _ h2 h3
          | some sel => exact evalAgeSel_alput_ne _ _ _ _ h2 h3

/-- The record stored by the fresh branch in the C2 counterexample
run: the observed `sources` value has overridden the poller's
`sources = [source_name]`. -/
def c2CounterexampleRecord : Record :=
  [("sources", Val.list ["evil"]), ("last_seen", Val.n 1000),
   ("first_seen", Val.n 1000), ("_last_run", Val.n 1000),
   ("_age_out", Val.n MAX_AGE_OUT)]

/-- C2 counterexample: the fresh branch applies `v.update(attributes)`
after setting `sources`, `first_seen`, `last_seen`, `_last_run`, so an
observed attribute map that itself contains `sources` overrides
`sources = [source_name]` in the stored and emitted record — the claim
fails for such observation maps. -/
theorem fresh_observation_counterexample :
    processObservation [] "src" ⟨3600, true, Option.none, []⟩ 3600
        Option.none [] "1.2.3.4" [("sources", Val.list ["evil"])] 1000 =
      some ([("1.2.3.4", c2CounterexampleRecord)],
        [Emit.update "1.2.3.4" c2CounterexampleRecord]) ∧
    alget c2CounterexampleRecord "sources" ≠ some (Val.list ["src"]) := by
  constructor
  · rfl
  · decide

/-- C2 (amended): for every observation classified as not-in-feed
(states NX, D, DA, DAW, DW) whose observed attribute map does not
itself contain the keys `sources`, `first_seen`, `last_seen` or
`_last_run`, the poller stores a record with
`sources = [source_name]`, `first_seen = last_seen = _last_run = now`
and `_age_out` computed from the age-out policy, and emits exactly one
update carrying that record.  (The observation is overlaid after those
fields are set, so observed keys override them — see the
counterexample.) -/
theorem fresh_observation_stores_and_emits (template : Record)
    (sourceName : String) (pol : AgeOutPolicy) (interval : Int)
    (lastRun : Option Int) (t : Table) (indicator : String)
    (attrs : Record) (now : Int) (st : Nat) (t' : Table) (es : List Emit)
    (hst : indicatorState t indicator now
      (inFeedThreshold lastRun interval now) = some st)
    (hgroup : st = 0 ∨ st = 1 ∨ st = 5 ∨ st = 13 ∨ st = 9)
    (hks : "sources" ∉ alkeys attrs)
    (hkf : "first_seen" ∉ alkeys attrs)
    (hkl : "last_seen" ∉ alkeys attrs)
    (hkr : "_last_run" ∉ alkeys attrs)
    (hrun : processObservation template sourceName pol interval lastRun
      t indicator attrs now = some (t', es)) :
    ∃ v ao, t' = alput t indicator v ∧
      es = [Emit.update indicator v] ∧
      alget v "sources" = some (Val.list [sourceName]) ∧
      alget v "first_seen" = some (Val.n now) ∧
      alget v "last_seen" = some (Val.n now) ∧
      alget v "_last_run" = some (Val.n now) ∧
      calcAgeOut pol v = some ao ∧
      alget v "_age_out" = some (Val.n ao) := by
  simp only [processObservation, hst, Option.some_bind] at hrun
  rw [if_pos hgroup] at hrun
  set v0 := alput (alput (alput (alput template
    "sources" (Val.list [sourceName]))
    "last_seen" (Val.n now))
    "first_seen" (Val.n now))
    "_last_run" (Val.n now) with hv0
  set v1 := alupdate v0 attrs with hv1
  cases hao : calcAgeOut pol v1 with
  | none =>
    rw [hao] at hrun
    simp at hrun
  | some ao =>
    rw [hao, Option.map_some'] at hrun
    simp only [Option.some_inj, Prod.mk.injEq] at hrun
    refine ⟨alput v1 "_age_out" (Val.n ao), ao,
      hrun.1.symm, hrun.2.symm, ?_, ?_, ?_, ?_, ?_, ?_⟩
    · rw [alget_alput_ne _ "_age_out" "sources" _ (by decide), hv1,
        alget_alupdate_not_mem _ _ _ hks, hv0,
        alget_alput_ne _ "_last_run" "sources" _ (by decide),
        alget_alput_ne _ "first_seen" "sources" _ (by decide),
        alget_alput_ne _ "last_seen" "sources" _ (by decide)]
      exact alget_alput_self _ _ _
    · rw [alget_alput_ne _ "_age_out" "first_seen" _ (by decide), hv1,
        alget_alupdate_not_mem _ _ _ hkf, hv0,
        alget_alput_ne _ "_last_run" "first_seen" _ (by decide)]
      exact alget_alput_self _ _ _
    · rw [alget_alput_ne _ "_age_out" "last_seen" _ (by decide), hv1,
        alget_alupdate_not_mem _ _ _ hkl, hv0,
        alget_alput_ne _ "_last_run" "last_seen" _ (by decide),
        alget_alput_ne _ "first_seen" "last_seen" _ (by decide)]
      exact alget_alput_self _ _ _
    · rw [alget_alput_ne _ "_age_out" "_last_run" _ (by decide), hv1,
        alget_alupdate_not_mem _ _ _ hkr, hv0]
      exact alget_alput_self _ _ _
    · rw [calcAgeOut_alput_ne pol v1 "_age_out" (Val.n ao)
        (by decide) (by decide) (by decide)]
      exact hao
    · exact alget_alput_self _ _ _

/-- The record stored by the fresh branch on the C2 witness run. -/
def c2WitnessRecord : Record :=
  [("confidence", Val.n 100), ("sources", Val.list ["s"]),
   ("last_seen", Val.n 1000), ("first_seen", Val.n 1000),
   ("_last_run", Val.n 1000), ("type", Val.s "IPv4"),
   ("_age_out", Val.n 2592001000)]

/-- C2 witness: a fresh observation of `1.2.3.4` with attributes
`{type: IPv4}` at `now = 1000` on an empty table. -/
theorem fresh_observation_stores_and_emits_witness :
    ∃ v ao,
      [("1.2.3.4", c2WitnessRecord)] = alput [] "1.2.3.4" v ∧
      [Emit.update "1.2.3.4" c2WitnessRecord] = [Emit.update "1.2.3.4" v] ∧
      alget v "sources" = some (Val.list ["s"]) ∧
      alget v "first_seen" = some (Val.n 1000) ∧
      alget v "last_seen" = some (Val.n 1000) ∧
      alget v "_last_run" = some (Val.n 1000) ∧
      calcAgeOut ⟨300, true, some ⟨AgeBase.firstSeen, 2592000000⟩, []⟩ v =
        some ao ∧
      alget v "_age_out" = some (Val.n ao) :=
  fresh_observation_stores_and_emits
    [("confidence", Val.n 100)] "s"
    ⟨300, true, some ⟨AgeBase.firstSeen, 2592000000⟩, []⟩ 300
    Option.none [] "1.2.3.4" [("type", Val.s "IPv4")] 1000 0
    [("1.2.3.4", c2WitnessRecord)] [Emit.update "1.2.3.4" c2WitnessRecord]
    (by decide) (Or.inl rfl) (by decide) (by decide) (by decide) (by decide)
    (by rfl)

theorem compareAttributes_eq_true_iff (oa na : Record) :
    compareAttributes oa na = true ↔
      ∀ k x, (k, x) ∈ na → pyGet oa k = x := by
  unfold compareAttributes
  rw [List.all_eq_true]
  constructor
  · intro h k x hm
    exact of_decide_eq_true (h (k, x) hm)
  · intro h kv hm
    exact decide_eq_true (h kv.1 kv.2 hm)

theorem compareAttributes_eq_false_iff (oa na : Record) :
    compareAttributes oa na = false ↔
      ∃ k x, (k, x) ∈ na ∧ pyGet oa k ≠ x := by
  rw [show (compareAttributes oa na = false) ↔
      ¬(compareAttributes oa na = true) by simp]
  rw [compareAttributes_eq_true_iff]
  push_neg
  constructor
  · rintro ⟨k, x, hm, hne⟩
    exact ⟨k, x, hm, hne⟩
  · rintro ⟨k, x, hm, hne⟩
    exact ⟨k, x, hm, hne⟩

/-- C4: for an observation in state DF (present, in-feed, not
aged-out, not withdrawn), the poller sets `_last_run = now`, merges the
observed attributes into the stored record, recomputes `_age_out`,
writes the record back, and emits an update iff at least one observed
attribute key differs from the value stored under that key. -/
theorem df_merges_and_emits_iff_changed (template : Record)
    (sourceName : String) (pol : AgeOutPolicy) (interval : Int)
    (lastRun : Option Int) (t : Table) (indicator : String)
    (attrs : Record) (now : Int) (cv : Record) (t' : Table)
    (es : List Emit)
    (hnd : (alkeys attrs).Nodup)
    (hcv : alget t indicator = some cv)
    (hst : indicatorState t indicator now
      (inFeedThreshold lastRun interval now) = some 3)
    (hrun : processObservation template sourceName pol interval lastRun
      t indicator attrs now = some (t', es)) :
    ∃ v ao, t' = alput t indicator v ∧
      (∀ k x, (k, x) ∈ attrs → k ≠ "_age_out" → alget v k = some x) ∧
      ("_last_run" ∉ alkeys attrs →
        alget v "_last_run" = some (Val.n now)) ∧
      calcAgeOut pol v = some ao ∧
      alget v "_age_out" = some (Val.n ao) ∧
      (es = [] ↔ ∀ k x, (k, x) ∈ attrs → pyGet cv k = x) ∧
      (es = [Emit.update indicator v] ↔
        ∃ k x, (k, x) ∈ attrs ∧ pyGet cv k ≠ x) := by
  simp only [processObservation, hst, Option.some_bind] at hrun
  rw [if_neg (by decide)] at hrun
  rw [if_pos trivial, hcv] at hrun
  simp only [Option.some_bind] at hrun
  set v1 := alupdate (alput cv "_last_run" (Val.n now)) attrs with hv1
  cases hao : calcAgeOut pol v1 with
  | none =>
    rw [hao] at hrun
    simp at hrun
  | some ao =>
    rw [hao] at hrun
    simp only [Option.map_some', Option.some_inj, Prod.mk.injEq] at hrun
    refine ⟨alput v1 "_age_out" (Val.n ao), ao, hrun.1.symm,
      ?_, ?_, ?_, ?_, ?_, ?_⟩
    · intro k x hmem hk
      rw [alget_alput_ne _ "_age_out" k _ (fun hc => hk hc.symm), hv1]
      exact alget_alupdate_mem _ _ _ _ hnd hmem
    · intro hnm
      rw [alget_alput_ne _ "_age_out" "_last_run" _ (by decide), hv1,
        alget_alupdate_not_mem _ _ _ hnm]
      exact alget_alput_self _ _ _
    · rw [calcAgeOut_alput_ne pol v1 "_age_out" (Val.n ao)
        (by decide) (by decide) (by decide)]
      exact hao
    · exact alget_alput_self _ _ _
    · cases hc : compareAttributes cv attrs
      · have hes := hrun.2
        rw [hc, if_neg (by decide)] at hes
        rw [← hes]
        constructor
        · intro h
          exact absurd h (by simp)
        · intro h
          obtain ⟨k, x, hm, hne⟩ :=
            (compareAttributes_eq_false_iff cv attrs).mp hc
          exact absurd (h k x hm) hne
      · have hes := hrun.2
        rw [hc, if_pos (by decide)] at hes
        rw [← hes]
        constructor
        · intro _
          exact (compareAttributes_eq_true_iff cv attrs).mp hc
        · intro _
          rfl
    · cases hc : compareAttributes cv attrs
      · have hes := hrun.2
        rw [hc, if_neg (by decide)] at hes
        rw [← hes]
        constructor
        · intro _
          exact (compareAttributes_eq_false_iff cv attrs).mp hc
        · intro _
          rfl
      · have hes := hrun.2
        rw [hc, if_pos (by decide)] at hes
        rw [← hes]
        constructor
        · intro h
          exact absurd h (by simp)
        · rintro ⟨k, x, hm, hne⟩
          exact absurd ((compareAttributes_eq_true_iff cv attrs).mp hc k x hm)
            hne

/-- The stored record in the C4 witness run. -/
def c4WitnessStored : Record :=
  [("_age_out", Val.n 900000), ("_last_run", Val.n 900),
   ("confidence", Val.n 50), ("first_seen", Val.n 100),
   ("last_seen", Val.n 900), ("type", Val.s "IPv4")]

/-- The merged record written back in the C4 witness run. -/
def c4WitnessMerged : Record :=
  [("_age_out", Val.n 1900), ("_last_run", Val.n 1000),
   ("confidence", Val.n 60), ("first_seen", Val.n 100),
   ("last_seen", Val.n 900), ("type", Val.s "IPv4")]

/-- C4 witness: a DF observation changing `confidence` from 50 to 60
merges and emits exactly one update. -/
theorem df_merges_and_emits_iff_changed_witness :
    ∃ v ao, [("i", c4WitnessMerged)] = alput [("i", c4WitnessStored)] "i" v ∧
      (∀ k x, (k, x) ∈ [("confidence", Val.n 60)] → k ≠ "_age_out" →
        alget v k = some x) ∧
      ("_last_run" ∉ alkeys [("confidence", Val.n 60)] →
        alget v "_last_run" = some (Val.n 1000)) ∧
      calcAgeOut ⟨300, true, some ⟨AgeBase.lastSeen, 1000⟩, []⟩ v = some ao ∧
      alget v "_age_out" = some (Val.n ao) ∧
      ([Emit.update "i" c4WitnessMerged] = ([] : List Emit) ↔
        ∀ k x, (k, x) ∈ [("confidence", Val.n 60)] →
          pyGet c4WitnessStored k = x) ∧
      ([Emit.update "i" c4WitnessMerged] = [Emit.update "i" v] ↔
        ∃ k x, (k, x) ∈ [("confidence", Val.n 60)] ∧
          pyGet c4WitnessStored k ≠ x) :=
  df_merges_and_emits_iff_changed [] "s"
    ⟨300, true, some ⟨AgeBase.lastSeen, 1000⟩, []⟩ 300 (some 800)
    [("i", c4WitnessStored)] "i" [("confidence", Val.n 60)] 1000
    c4WitnessStored [("i", c4WitnessMerged)]
    [Emit.update "i" c4WitnessMerged]
    (by decide) (by decide) (by decide) (by rfl)

/-- C10: for an observation in state DF, attribute keys present in the
stored record but absent from the observed attribute map are preserved
unchanged by the merge (apart from the poller-maintained `_last_run`
and `_age_out`), and stored-only keys never by themselves cause an
update: when every observed key matches the stored value, no update is
emitted. -/
theorem df_frame_stored_only_keys (template : Record)
    (sourceName : String) (pol : AgeOutPolicy) (interval : Int)
    (lastRun : Option Int) (t : Table) (indicator : String)
    (attrs : Record) (now : Int) (cv : Record) (t' : Table)
    (es : List Emit)
    (hcv : alget t indicator = some cv)
    (hst : indicatorState t indicator now
      (inFeedThreshold lastRun interval now) = some 3)
    (hrun : processObservation template sourceName pol interval lastRun
      t indicator attrs now = some (t', es)) :
    ∃ v, t' = alput t indicator v ∧
      (∀ k, k ∉ alkeys attrs → k ≠ "_last_run" → k ≠ "_age_out" →
        alget v k = alget cv k) ∧
      ((∀ k x, (k, x) ∈ attrs → pyGet cv k = x) → es = []) := by
  simp only [processObservation, hst, Option.some_bind] at hrun
  rw [if_neg (by decide)] at hrun
  rw [if_pos trivial, hcv] at hrun
  simp only [Option.some_bind] at hrun
  set v1 := alupdate (alput cv "_last_run" (Val.n now)) attrs with hv1
  cases hao : calcAgeOut pol v1 with
  | none =>
    rw [hao] at hrun
    simp at hrun
  | some ao =>
    rw [hao] at hrun
    simp only [Option.map_some', Option.some_inj, Prod.mk.injEq] at hrun
    refine ⟨alput v1 "_age_out" (Val.n ao), hrun.1.symm, ?_, ?_⟩
    · intro k hknm hkl hka
      rw [alget_alput_ne _ "_age_out" k _ (fun hc => hka hc.symm), hv1,
        alget_alupdate_not_mem _ _ _ hknm]
      exact alget_alput_ne _ "_last_run" k _ (fun hc => hkl hc.symm)
    · intro hall
      have hc : compareAttributes cv attrs = true :=
        (compareAttributes_eq_true_iff cv attrs).mpr hall
      have hes := hrun.2
      rw [hc, if_pos (by decide)] at hes
      exact hes.symm

/-- The stored record in the C10 witness run. -/
def c10WitnessStored : Record :=
  [("_age_out", Val.n 5000), ("_last_run", Val.n 70),
   ("extra", Val.s "keep"), ("type", Val.s "URL")]

/-- The record written back in the C10 witness run: the stored-only
key `extra` is preserved and no update is emitted. -/
def c10WitnessMerged : Record :=
  [("_age_out", Val.n MAX_AGE_OUT), ("_last_run", Val.n 100),
   ("extra", Val.s "keep"), ("type", Val.s "URL")]

/-- C10 witness: a DF observation repeating the stored `type` leaves
the stored-only key `extra` unchanged and emits nothing. -/
theorem df_frame_stored_only_keys_witness :
    ∃ v, [("j", c10WitnessMerged)] = alput [("j", c10WitnessStored)] "j" v ∧
      (∀ k, k ∉ alkeys [("type", Val.s "URL")] → k ≠ "_last_run" →
        k ≠ "_age_out" → alget v k = alget c10WitnessStored k) ∧
      ((∀ k x, (k, x) ∈ [("type", Val.s "URL")] →
          pyGet c10WitnessStored k = x) → ([] : List Emit) = []) :=
  df_frame_stored_only_keys [] "s" ⟨60, false, Option.none, []⟩ 60
    (some 60) [("j", c10WitnessStored)] "j" [("type", Val.s "URL")] 100
    c10WitnessStored [("j", c10WitnessMerged)] []
    (by decide) (by decide) (by rfl)

/-! ## ipop.py: the IPv4 range aggregator -/

/-- `WL_LEVEL = st.MAX_LEVEL`.  Modelled from the spec: the interval
store `st.ST` is not under the sources; the spec fixes `MAX_LEVEL` as
the sentinel whitelist level, above the normal level 1 (`0xFF` in the
store). -/
def WL_LEVEL : Nat := 255

/-- An interval entry of the `IntervalStore`: `(id, start, end,
level)`.  Modelled from the spec's data model for `st.ST`, with the
16-byte id abstracted to a natural number. -/
structure STEntry : Type where
  uid : Nat
  start : Nat
  stop : Nat
  level : Nat
deriving DecidableEq, Repr

/-- `st.cover(p)`: the entries whose interval covers the point `p`.
Modelled from the spec's `IntervalStore` interface. -/
def cover (store : List STEntry) (p : Nat) : List STEntry :=
  store.filter (fun e => decide (e.start ≤ p ∧ p ≤ e.stop))

/-- All endpoint addresses of the stored intervals. -/
def endpointAddrs (store : List STEntry) : List Nat :=
  store.map STEntry.start ++ store.map STEntry.stop

/-- The deduplicated ascending endpoint list built at the top of
`_calc_ipranges` from `st.query_endpoints(start, stop)` (the source
collects the endpoints into a set and sorts them). -/
def eps (store : List STEntry) (lo hi : Nat) : List Nat :=
  (((endpointAddrs store).filter
    (fun x => decide (lo ≤ x ∧ x ≤ hi))).dedup).insertionSort (· ≤ ·)

/-- Ids of covering intervals starting at `p` (`start_ids`). -/
def epStartIds (store : List STEntry) (p : Nat) : Finset Nat :=
  (((cover store p).filter (fun e => decide (e.start = p))).map
    STEntry.uid).toFinset

/-- Ids of covering intervals ending at `p` (`end_ids`). -/
def epEndIds (store : List STEntry) (p : Nat) : Finset Nat :=
  (((cover store p).filter (fun e => decide (e.stop = p))).map
    STEntry.uid).toFinset

/-- Ids of covering intervals neither starting nor ending at `p`;
the source adds these to `live_ids` directly while scanning
`cover(p)`. -/
def epMidIds (store : List STEntry) (p : Nat) : Finset Nat :=
  (((cover store p).filter
    (fun e => decide (e.start ≠ p ∧ e.stop ≠ p))).map STEntry.uid).toFinset

/-- `eplevel`: the maximum level among the intervals covering `p`. -/
def epLevel (store : List STEntry) (p : Nat) : Nat :=
  ((cover store p).map STEntry.level).foldr max 0

/-- An aggregated range `MWUpdate(start, end, uuids)`.  The source's
`MWUpdate` compares equal on `(start, end)` alone; the ranges produced
by one `_calc_ipranges` sweep have pairwise distinct ends, so embedding
the result set as a list loses nothing. -/
structure MWUpdate : Type where
  start : Nat
  stop : Nat
  uuids : Finset Nat
deriving DecidableEq

/-- The sweep state of `_calc_ipranges`: the left edge `oep` of the
range being built, the ids covering the cursor, and the ranges emitted
so far. -/
structure SweepState : Type where
  oep : Option Nat
  live : Finset Nat
  result : List MWUpdate
deriving DecidableEq

/-- The `live_ids.add` calls made while scanning `cover(p)`: intervals
neither starting nor ending at `p` join `live_ids` directly. -/
def sweepMid (store : List STEntry) (p : Nat) (s : SweepState) :
    SweepState :=
  ⟨s.oep, s.live ∪ epMidIds store p, s.result⟩

/-- The `start_ids` branch of the `_calc_ipranges` sweep: emit
`(oep, p-1, live_ids)` when a range is open, non-empty and the
endpoint level is below `WL_LEVEL`, then move `oep` to `p` and add the
starting ids. -/
def sweepStart (store : List STEntry) (p : Nat) (s : SweepState) :
    SweepState :=
  if epStartIds store p ≠ ∅ then
    ⟨some p, s.live ∪ epStartIds store p,
      match s.oep with
      | some o =>
        if o ≠ p ∧ s.live ≠ ∅ ∧ epLevel store p < WL_LEVEL then
          s.result ++ [⟨o, p - 1, s.live⟩]
        else s.result
      | Option.none => s.result⟩
  else s

/-- The `end_ids` branch of the `_calc_ipranges` sweep: emit
`(oep, p, live_ids)` under the same guards, then move `oep` to `p + 1`
and drop the ending ids. -/
def sweepEnd (store : List STEntry) (p : Nat) (s : SweepState) :
    SweepState :=
  if epEndIds store p ≠ ∅ then
    ⟨some (p + 1), s.live \ epEndIds store p,
      match s.oep with
      | some o =>
        if s.live ≠ ∅ ∧ epLevel store p < WL_LEVEL then
          s.result ++ [⟨o, p, s.live⟩]
        else s.result
      | Option.none => s.result⟩
  else s

/-- One endpoint step of the `_calc_ipranges` sweep (lines 139-180 of
`ipop.py`): the mid-interval additions, then the `start_ids` branch,
then the `end_ids` branch. -/
def sweepStep (store : List STEntry) (s : SweepState) (p : Nat) :
    SweepState :=
  sweepEnd store p (sweepStart store p (sweepMid store p s))

/-- `AggregateIPv4FT._calc_ipranges(start, end)`: sweep the window's
endpoints in ascending order and collect the emitted ranges. -/
def calcIpranges (store : List STEntry) (lo hi : Nat) : List MWUpdate :=
  ((eps store lo hi).foldl (sweepStep store) ⟨Option.none, ∅, []⟩).result

/-- `x` is the right endpoint of some stored interval that covers
it. -/
def stopAt (store : List STEntry) (x : Nat) : Prop :=
  ∃ e ∈ store, e.start ≤ x ∧ e.stop = x

/-- No whitelist-level interval covers the point `x`. -/
def WLfreeAt (store : List STEntry) (x : Nat) : Prop :=
  ∀ e ∈ store, WL_LEVEL ≤ e.level → ¬(e.start ≤ x ∧ x ≤ e.stop)

/-- The C1 range property: non-empty id set, and both bounds free of
whitelist-level cover. -/
def GoodRange (store : List STEntry) (r : MWUpdate) : Prop :=
  r.uuids ≠ ∅ ∧ WLfreeAt store r.start ∧ WLfreeAt store r.stop

/-- Sweep invariant, relative to the remaining endpoint list `rest`:
all emitted ranges are good, and when a range is open at `o`, `o` is
inside the window, at or before every remaining endpoint, and no
interval stops in the already-swept region at or after `o`. -/
def Inv (store : List STEntry) (lo hi : Nat) (rest : List Nat)
    (s : SweepState) : Prop :=
  (∀ r ∈ s.result, GoodRange store r) ∧
  ∀ o, s.oep = some o →
    lo ≤ o ∧ (∀ p ∈ rest, o ≤ p) ∧
    ∀ x, o ≤ x → x ≤ hi → (∀ p ∈ rest, x < p) → ¬ stopAt store x

theorem mem_cover (store : List STEntry) (p : Nat) (e : STEntry) :
    e ∈ cover store p ↔ e ∈ store ∧ e.start ≤ p ∧ p ≤ e.stop := by
  simp [cover, List.mem_filter]

theorem le_foldr_max (l : List Nat) (x : Nat) (h : x ∈ l) :
    x ≤ l.foldr max 0 := by
  induction l with
  | nil => simp at h
  | cons hd tl ih =>
    rcases List.mem_cons.mp h with h1 | h1
    · subst h1
      exact le_max_left _ _
    · exact le_trans (ih h1) (le_max_right _ _)

theorem level_le_epLevel (store : List STEntry) (p : Nat) (e : STEntry)
    (h : e ∈ cover store p) : e.level ≤ epLevel store p :=
  le_foldr_max _ _ (List.mem_map.mpr ⟨e, h, rfl⟩)

theorem mem_eps (store : List STEntry) (lo hi x : Nat) :
    x ∈ eps store lo hi ↔
      (lo ≤ x ∧ x ≤ hi) ∧
      (∃ e ∈ store, e.start = x ∨ e.stop = x) := by
  unfold eps
  rw [List.mem_insertionSort, List.mem_dedup, List.mem_filter]
  simp only [decide_eq_true_eq]
  unfold endpointAddrs
  constructor
  · rintro ⟨hm, hb⟩
    refine ⟨hb, ?_⟩
    rcases List.mem_append.mp hm with h1 | h1
    · rcases List.mem_map.mp h1 with ⟨e, he, rfl⟩
      exact ⟨e, he, Or.inl rfl⟩
    · rcases List.mem_map.mp h1 with ⟨e, he, rfl⟩
      exact ⟨e, he, Or.inr rfl⟩
  · rintro ⟨hb, e, he, h1 | h1⟩
    · exact ⟨List.mem_append.mpr (Or.inl (List.mem_map.mpr ⟨e, he, h1⟩)), hb⟩
    · exact ⟨List.mem_append.mpr (Or.inr (List.mem_map.mpr ⟨e, he, h1⟩)), hb⟩

theorem eps_sorted (store : List STEntry) (lo hi : Nat) :
    (eps store lo hi).Sorted (· < ·) := by
  refine List.Sorted.lt_of_le (List.sorted_insertionSort _ _) ?_
  exact (List.perm_insertionSort _ _).nodup_iff.mpr (List.nodup_dedup _)

theorem not_stopAt_of_endIds_empty (store : List STEntry) (p : Nat)
    (h : epEndIds store p = ∅) : ¬ stopAt store p := by
  rintro ⟨e, he, hle, hstop⟩
  have hm : e.uid ∈ epEndIds store p := by
    unfold epEndIds
    rw [List.mem_toFinset]
    refine List.mem_map.mpr ⟨e, ?_, rfl⟩
    refine List.mem_filter.mpr
      ⟨(mem_cover store p e).mpr ⟨he, hle, by rw [hstop]⟩, by simp [hstop]⟩
  rw [h] at hm
  exact absurd hm (Finset.not_mem_empty _)

theorem WLfree_of_lvl_lt (store : List STEntry) (p : Nat)
    (hlvl : epLevel store p < WL_LEVEL) : WLfreeAt store p := by
  intro e he hwl hc
  have h1 : e ∈ cover store p := (mem_cover store p e).mpr ⟨he, hc⟩
  have h2 := level_le_epLevel store p e h1
  omega

theorem WLfree_edge (store : List STEntry) (o p hi c : Nat)
    (hco : o ≤ c) (hcp : c ≤ p) (hhi : p ≤ hi)
    (hlvl : epLevel store p < WL_LEVEL)
    (hnostop : ∀ x, o ≤ x → x ≤ hi → x < p → ¬ stopAt store x) :
    WLfreeAt store c := by
  intro e he hwl hc
  by_cases hcovp : e.start ≤ p ∧ p ≤ e.stop
  · exact WLfree_of_lvl_lt store p hlvl e he hwl hcovp
  · have hstart : e.start ≤ p := le_trans hc.1 hcp
    have hstop : e.stop < p := by
      rcases not_and_or.mp hcovp with h1 | h1
      · omega
      · omega
    refine hnostop e.stop (le_trans hco hc.2) (by omega) hstop
      ⟨e, he, le_trans hc.1 hc.2, rfl⟩

/-- Effect of the `end_ids` branch on the invariant, given the
mid-sweep facts about the open range. -/
theorem sweepEnd_inv (store : List STEntry) (lo hi p : Nat)
    (rest : List Nat) (s1 : SweepState)
    (hplo : lo ≤ p) (hphi : p ≤ hi)
    (hrest : ∀ q ∈ rest, p < q)
    (hcomp : ∀ x, lo ≤ x → x ≤ hi → stopAt store x →
      x ∈ (p :: rest) ∨ ∀ q ∈ (p :: rest), x < q)
    (hres1 : ∀ r ∈ s1.result, GoodRange store r)
    (hoep1 : ∀ o, s1.oep = some o → lo ≤ o ∧ o ≤ p ∧
      ∀ x, o ≤ x → x ≤ hi → x < p → ¬ stopAt store x) :
    Inv store lo hi rest (sweepEnd store p s1) := by
  have hcompgt : ∀ x, lo ≤ x → x ≤ hi → stopAt store x → p < x →
      (∀ q ∈ rest, x < q) → False := by
    intro x h1 h2 h3 h4 h5
    rcases hcomp x h1 h2 h3 with h6 | h6
    · rcases List.mem_cons.mp h6 with h7 | h7
      · omega
      · exact absurd rfl (ne_of_lt (h5 x h7))
    · exact absurd (h6 p (List.mem_cons_self p rest)) (by omega)
  unfold sweepEnd
  by_cases hB : epEndIds store p ≠ ∅
  · rw [if_pos hB]
    refine ⟨?_, ?_⟩
    · -- result: old ranges plus the possible end emission
      cases hso1 : s1.oep with
      | none =>
        dsimp only
        exact hres1
      | some o =>
        dsimp only
        by_cases hg : s1.live ≠ ∅ ∧ epLevel store p < WL_LEVEL
        · rw [if_pos hg]
          intro r hr
          rcases List.mem_append.mp hr with hr1 | hr1
          · exact hres1 r hr1
          · have hre : r = ⟨o, p, s1.live⟩ := by simpa using hr1
            subst hre
            obtain ⟨hlo_o, hop, hnostop⟩ := hoep1 o hso1
            exact ⟨hg.1, WLfree_edge store o p hi o le_rfl hop hphi hg.2
              hnostop, WLfree_of_lvl_lt store p hg.2⟩
        · rw [if_neg hg]
          exact hres1
    · -- open range: oep = p + 1
      intro o2 ho2
      dsimp only at ho2
      have ho2e : o2 = p + 1 := by
        cases ho2
        rfl
      subst ho2e
      refine ⟨by omega, fun q hq => by have := hrest q hq; omega,
        fun x hx1 hx2 hx3 hstop => ?_⟩
      exact hcompgt x (by omega) hx2 hstop (by omega) hx3
  · rw [if_neg hB]
    have hnsp : ¬ stopAt store p :=
      not_stopAt_of_endIds_empty store p (by
        by_contra hc
        exact hB hc)
    refine ⟨hres1, fun o ho => ?_⟩
    obtain ⟨hlo_o, hop, hnostop⟩ := hoep1 o ho
    refine ⟨hlo_o, fun q hq => by have := hrest q hq; omega,
      fun x hx1 hx2 hx3 hstop => ?_⟩
    rcases lt_trichotomy x p with hx | hx | hx
    · exact hnostop x hx1 hx2 hx hstop
    · subst hx
      exact hnsp hstop
    · exact hcompgt x (by omega) hx2 hstop hx hx3

/-- Effect of the mid additions and the `start_ids` branch: emitted
ranges stay good and the open range satisfies the mid-sweep facts. -/
theorem sweepStart_midinv (store : List STEntry) (lo hi p : Nat)
    (rest : List Nat) (s : SweepState)
    (hplo : lo ≤ p) (hphi : p ≤ hi)
    (hrest : ∀ q ∈ rest, p < q)
    (hinv : Inv store lo hi (p :: rest) s) :
    (∀ r ∈ (sweepStart store p (sweepMid store p s)).result,
       GoodRange store r) ∧
    (∀ o, (sweepStart store p (sweepMid store p s)).oep = some o →
       lo ≤ o ∧ o ≤ p ∧
       ∀ x, o ≤ x → x ≤ hi → x < p → ¬ stopAt store x) := by
  obtain ⟨hres, hoep⟩ := hinv
  have holdfacts : ∀ o, s.oep = some o → lo ≤ o ∧ o ≤ p ∧
      ∀ x, o ≤ x → x ≤ hi → x < p → ¬ stopAt store x := by
    intro o ho
    obtain ⟨h1, h2, h3⟩ := hoep o ho
    refine ⟨h1, h2 p (List.mem_cons_self p rest), fun x hx1 hx2 hx3 => ?_⟩
    refine h3 x hx1 hx2 (fun q hq => ?_)
    rcases List.mem_cons.mp hq with hq1 | hq1
    · omega
    · have := hrest q hq1
      omega
  unfold sweepStart sweepMid
  by_cases hA : epStartIds store p ≠ ∅
  · rw [if_pos hA]
    constructor
    · cases hso : s.oep with
      | none =>
        dsimp only
        exact hres
      | some o =>
        dsimp only
        by_cases hg : o ≠ p ∧ s.live ∪ epMidIds store p ≠ ∅ ∧
            epLevel store p < WL_LEVEL
        · rw [if_pos hg]
          intro r hr
          rcases List.mem_append.mp hr with hr1 | hr1
          · exact hres r hr1
          · have hre : r = ⟨o, p - 1, s.live ∪ epMidIds store p⟩ := by
              simpa using hr1
            subst hre
            obtain ⟨hlo_o, hop, hnostop⟩ := holdfacts o hso
            have holt : o < p := lt_of_le_of_ne hop hg.1
            exact ⟨hg.2.1,
              WLfree_edge store o p hi o le_rfl hop hphi hg.2.2 hnostop,
              WLfree_edge store o p hi (p - 1) (by omega) (by omega) hphi
                hg.2.2 hnostop⟩
        · rw [if_neg hg]
          exact hres
    · intro o2 ho2
      dsimp only at ho2
      have ho2e : o2 = p := by
        cases ho2
        rfl
      subst ho2e
      exact ⟨hplo, le_rfl, fun x hx1 hx2 hx3 => by omega⟩
  · rw [if_neg hA]
    exact ⟨hres, holdfacts⟩

/-- One full sweep step preserves the invariant. -/
theorem sweepStep_inv (store : List STEntry) (lo hi p : Nat)
    (rest : List Nat) (s : SweepState)
    (hplo : lo ≤ p) (hphi : p ≤ hi)
    (hrest : ∀ q ∈ rest, p < q)
    (hcomp : ∀ x, lo ≤ x → x ≤ hi → stopAt store x →
      x ∈ (p :: rest) ∨ ∀ q ∈ (p :: rest), x < q)
    (hinv : Inv store lo hi (p :: rest) s) :
    Inv store lo hi rest (sweepStep store s p) := by
  obtain ⟨h1, h2⟩ := sweepStart_midinv store lo hi p rest s hplo hphi
    hrest hinv
  exact sweepEnd_inv store lo hi p rest _ hplo hphi hrest hcomp h1 h2

/-- The sweep fold keeps every emitted range good. -/
theorem sweep_foldl_good (store : List STEntry) (lo hi : Nat) :
    ∀ (l : List Nat) (s : SweepState),
      l.Sorted (· < ·) →
      (∀ q ∈ l, lo ≤ q ∧ q ≤ hi) →
      (∀ x, lo ≤ x → x ≤ hi → stopAt store x →
        x ∈ l ∨ ∀ q ∈ l, x < q) →
      Inv store lo hi l s →
      ∀ r ∈ (l.foldl (sweepStep store) s).result, GoodRange store r := by
  intro l
  induction l with
  | nil =>
    intro s _ _ _ hinv
    exact hinv.1
  | cons p rest ih =>
    intro s hsort hbounds hcomp hinv
    rw [List.foldl_cons]
    have hrest : ∀ q ∈ rest, p < q := by
      intro q hq
      exact (List.sorted_cons.mp hsort).1 q hq
    refine ih (sweepStep store s p) (List.sorted_cons.mp hsort).2
      (fun q hq => hbounds q (List.mem_cons_of_mem p hq)) ?_ ?_
    · intro x hx1 hx2 hstop
      rcases hcomp x hx1 hx2 hstop with h3 | h3
      · rcases List.mem_cons.mp h3 with h4 | h4
        · subst h4
          exact Or.inr (fun q hq => hrest q hq)
        · exact Or.inl h4
      · exact Or.inr (fun q hq => h3 q (List.mem_cons_of_mem p hq))
    · exact sweepStep_inv store lo hi p rest s (hbounds p
        (List.mem_cons_self p rest)).1 (hbounds p
        (List.mem_cons_self p rest)).2 hrest hcomp hinv

/-- C1: every range returned by `_calc_ipranges(lo, hi)` has a
non-empty id set, and neither of its endpoints is covered by any
interval of level `WL_LEVEL` — whitelisted regions are excluded from
the output. -/
theorem calc_ipranges_ranges_good (store : List STEntry) (lo hi : Nat)
    (r : MWUpdate) (hr : r ∈ calcIpranges store lo hi) :
    r.uuids ≠ ∅ ∧
    (∀ e ∈ store, e.level = WL_LEVEL →
      ¬(e.start ≤ r.start ∧ r.start ≤ e.stop) ∧
      ¬(e.start ≤ r.stop ∧ r.stop ≤ e.stop)) := by
  have hgood : GoodRange store r := by
    refine sweep_foldl_good store lo hi (eps store lo hi)
      ⟨Option.none, ∅, []⟩ (eps_sorted store lo hi) ?_ ?_ ?_ r hr
    · intro q hq
      exact ((mem_eps store lo hi q).mp hq).1
    · intro x hx1 hx2 hstop
      obtain ⟨e, he, hle, hstop2⟩ := hstop
      exact Or.inl ((mem_eps store lo hi x).mpr
        ⟨⟨hx1, hx2⟩, e, he, Or.inr hstop2⟩)
    · exact ⟨by simp, fun o ho => by cases ho⟩
  obtain ⟨hne, hfs, hft⟩ := hgood
  refine ⟨hne, fun e he hwl => ⟨?_, ?_⟩⟩
  · exact hfs e he (le_of_eq hwl.symm)
  · exact hft e he (le_of_eq hwl.symm)

/-- C1 witness: the store holding the single normal-level interval
`[5, 10]` yields the range `(5, 10, {1})` over the window `[0, 100]`,
and that range is good. -/
theorem calc_ipranges_ranges_good_witness :
    (⟨5, 10, {1}⟩ : MWUpdate).uuids ≠ ∅ ∧
    (∀ e ∈ [(⟨1, 5, 10, 1⟩ : STEntry)], e.level = WL_LEVEL →
      ¬(e.start ≤ (⟨5, 10, {1}⟩ : MWUpdate).start ∧
        (⟨5, 10, {1}⟩ : MWUpdate).start ≤ e.stop) ∧
      ¬(e.start ≤ (⟨5, 10, {1}⟩ : MWUpdate).stop ∧
        (⟨5, 10, {1}⟩ : MWUpdate).stop ≤ e.stop)) :=
  calc_ipranges_ranges_good [⟨1, 5, 10, 1⟩] 0 100 ⟨5, 10, {1}⟩ (by decide)

/-! ## IPv4 indicator strings: parsing and serialization -/

/-- The decimal digit character for `k ≤ 9`. -/
def digitChar (k : Nat) : Char := Char.ofNat (48 + k)

/-- Decimal digit test on a character. -/
def isDigitC (c : Char) : Bool := decide (48 ≤ c.toNat ∧ c.toNat ≤ 57)

/-- Value of a decimal digit character. -/
def digitVal (c : Char) : Nat := c.toNat - 48

/-- Split a character list into its leading run of decimal digits and
the rest. -/
def takeDigits : List Char → List Char × List Char
  | [] => ([], [])
  | c :: cs =>
    if isDigitC c then (c :: (takeDigits cs).1, (takeDigits cs).2)
    else ([], c :: cs)

/-- Decimal value of a digit run. -/
def digitsVal (l : List Char) : Nat :=
  l.foldl (fun a c => 10 * a + digitVal c) 0

/-- Parse one dotted-quad octet: a non-empty digit run with value at
most 255. -/
def parseOctet (cs : List Char) : Option (Nat × List Char) :=
  if (takeDigits cs).1 = [] then Option.none
  else if digitsVal (takeDigits cs).1 ≤ 255 then
    some (digitsVal (takeDigits cs).1, (takeDigits cs).2)
  else Option.none

/-- Consume a literal dot. -/
def expectDot : List Char → Option (List Char)
  | c :: r => if c = '.' then some r else Option.none
  | [] => Option.none

/-- Parse a full dotted-quad IPv4 address, consuming the whole input.
Models `int(netaddr.IPAddress(s))` on dotted-quad input (the only
shape the aggregator's serialized indicators use). -/
def parseIPv4Chars (cs : List Char) : Option Nat :=
  (parseOctet cs).bind (fun p1 =>
  (expectDot p1.2).bind (fun r1 =>
  (parseOctet r1).bind (fun p2 =>
  (expectDot p2.2).bind (fun r2 =>
  (parseOctet r2).bind (fun p3 =>
  (expectDot p3.2).bind (fun r3 =>
  (parseOctet r3).bind (fun p4 =>
  if p4.2 = [] then
    some (((p1.1 * 256 + p2.1) * 256 + p3.1) * 256 + p4.1)
  else Option.none)))))))

/-- Parse a CIDR prefix length (all-digit tail, value at most 32). -/
def parsePrefixLen (cs : List Char) : Option Nat :=
  if (takeDigits cs).1 = [] then Option.none
  else if (takeDigits cs).2 = [] then
    if digitsVal (takeDigits cs).1 ≤ 32 then
      some (digitsVal (takeDigits cs).1)
    else Option.none
  else Option.none

/-- Split at the first occurrence of `sep` (Python
`s.split(sep, 1)` when `sep` occurs). -/
def splitFirst (sep : Char) : List Char → Option (List Char × List Char)
  | [] => Option.none
  | c :: cs =>
    if c = sep then some ([], cs)
    else (splitFirst sep cs).map (fun p => (c :: p.1, p.2))

/-- `AggregateIPv4FT._range_from_indicator` on the character level:
a hyphenated range splits at the first `-` and parses both sides; a
CIDR parses the address and adds `size - 1` (netaddr's `IPNetwork.ip`
keeps host bits, so the start is not masked); otherwise a single
address.  `Option.none` embeds the exception netaddr raises on
malformed input. -/
def rangeFromIndicatorChars (cs : List Char) : Option (Nat × Nat) :=
  match splitFirst '-' cs with
  | some (a, b) =>
    (parseIPv4Chars a).bind (fun s =>
    (parseIPv4Chars b).map (fun e => (s, e)))
  | Option.none =>
    match splitFirst '/' cs with
    | some (a, pl) =>
      (parseIPv4Chars a).bind (fun s =>
      (parsePrefixLen pl).map (fun p => (s, s + 2 ^ (32 - p) - 1)))
    | Option.none =>
      (parseIPv4Chars cs).map (fun s => (s, s))

/-- `_range_from_indicator` on strings. -/
def rangeFromIndicator (s : String) : Option (Nat × Nat) :=
  rangeFromIndicatorChars s.data

/-- Decimal digit characters of one octet value. -/
def octetChars (n : Nat) : List Char :=
  if n < 10 then [digitChar n]
  else if n < 100 then [digitChar (n / 10), digitChar (n % 10)]
  else [digitChar (n / 100), digitChar (n / 10 % 10), digitChar (n % 10)]

/-- The dotted-quad rendering of an IPv4 integer — the model of
`str(netaddr.IPAddress(n))`. -/
def ipChars (n : Nat) : List Char :=
  octetChars (n / 16777216) ++ '.' ::
  (octetChars (n / 65536 % 256) ++ '.' ::
  (octetChars (n / 256 % 256) ++ '.' :: octetChars (n % 256)))

/-- `MWUpdate._indicator`: the serialized `"start-end"` form. -/
def mwIndicator (a b : Nat) : String :=
  String.mk (ipChars a ++ '-' :: ipChars b)

theorem digitChar_isDigit (k : Nat) (h : k ≤ 9) :
    isDigitC (digitChar k) = true := by
  interval_cases k <;> decide

theorem digitVal_digitChar (k : Nat) (h : k ≤ 9) :
    digitVal (digitChar k) = k := by
  interval_cases k <;> decide

theorem octetChars_digits (m : Nat) (h : m ≤ 255) :
    ∀ c ∈ octetChars m, isDigitC c = true := by
  intro c hc
  unfold octetChars at hc
  by_cases h1 : m < 10
  · rw [if_pos h1] at hc
    have : c = digitChar m := by simpa using hc
    subst this
    exact digitChar_isDigit m (by omega)
  · rw [if_neg h1] at hc
    by_cases h2 : m < 100
    · rw [if_pos h2] at hc
      rcases List.mem_cons.mp hc with h3 | h3
      · subst h3
        exact digitChar_isDigit _ (by omega)
      · have : c = digitChar (m % 10) := by simpa using h3
        subst this
        exact digitChar_isDigit _ (by omega)
    · rw [if_neg h2] at hc
      rcases List.mem_cons.mp hc with h3 | h3
      · subst h3
        exact digitChar_isDigit _ (by omega)
      · rcases List.mem_cons.mp h3 with h4 | h4
        · subst h4
          exact digitChar_isDigit _ (by omega)
        · have : c = digitChar (m % 10) := by simpa using h4
          subst this
          exact digitChar_isDigit _ (by omega)

/-- The rest of the input after a digit run does not begin with a
digit. -/
def headNotDigit (l : List Char) : Prop :=
  ∀ c, l.head? = some c → isDigitC c = false

theorem headNotDigit_nil : headNotDigit [] := by
  intro c hc
  cases hc

theorem headNotDigit_dot (l : List Char) : headNotDigit ('.' :: l) := by
  intro c hc
  have : c = '.' := by
    simpa using hc.symm
  subst this
  decide

theorem takeDigits_append (d rest : List Char)
    (hd : ∀ c ∈ d, isDigitC c = true) (hr : headNotDigit rest) :
    takeDigits (d ++ rest) = (d, rest) := by
  induction d with
  | nil =>
    cases rest with
    | nil => rfl
    | cons c cs =>
      simp [takeDigits, hr c rfl]
  | cons c cs ih =>
    have h1 : isDigitC c = true := hd c (List.mem_cons_self c cs)
    have h2 := ih (fun x hx => hd x (List.mem_cons_of_mem c hx))
    simp [takeDigits, h1, h2]

theorem digitsVal_octetChars (m : Nat) (h : m ≤ 255) :
    digitsVal (octetChars m) = m := by
  unfold octetChars
  by_cases h1 : m < 10
  · rw [if_pos h1]
    simp [digitsVal, digitVal_digitChar m (by omega)]
  · rw [if_neg h1]
    by_cases h2 : m < 100
    · rw [if_pos h2]
      simp only [digitsVal, List.foldl_cons, List.foldl_nil,
        digitVal_digitChar (m / 10) (by omega),
        digitVal_digitChar (m % 10) (by omega)]
      omega
    · rw [if_neg h2]
      simp only [digitsVal, List.foldl_cons, List.foldl_nil,
        digitVal_digitChar (m / 100) (by omega),
        digitVal_digitChar (m / 10 % 10) (by omega),
        digitVal_digitChar (m % 10) (by omega)]
      omega

theorem octetChars_ne_nil (m : Nat) : octetChars m ≠ [] := by
  unfold octetChars
  by_cases h1 : m < 10
  · simp [h1]
  · by_cases h2 : m < 100
    · simp [h1, h2]
    · simp [h1, h2]

theorem parseOctet_octet (m : Nat) (rest : List Char) (h : m ≤ 255)
    (hr : headNotDigit rest) :
    parseOctet (octetChars m ++ rest) = some (m, rest) := by
  unfold parseOctet
  rw [takeDigits_append _ _ (octetChars_digits m h) hr]
  rw [if_neg (by simpa using octetChars_ne_nil m)]
  rw [digitsVal_octetChars m h]
  rw [if_pos h]

theorem parseIPv4Chars_ipChars (n : Nat) (h : n < 2 ^ 32) :
    parseIPv4Chars (ipChars n) = some n := by
  norm_num at h
  unfold parseIPv4Chars ipChars
  rw [parseOctet_octet (n / 16777216) _ (by omega) (headNotDigit_dot _)]
  simp only [Option.some_bind]
  rw [show expectDot ('.' :: (octetChars (n / 65536 % 256) ++ '.' ::
      (octetChars (n / 256 % 256) ++ '.' :: octetChars (n % 256)))) =
    some (octetChars (n / 65536 % 256) ++ '.' ::
      (octetChars (n / 256 % 256) ++ '.' :: octetChars (n % 256)))
    from by simp [expectDot]]
  simp only [Option.some_bind]
  rw [parseOctet_octet (n / 65536 % 256) _ (by omega) (headNotDigit_dot _)]
  simp only [Option.some_bind]
  rw [show expectDot ('.' :: (octetChars (n / 256 % 256) ++ '.' ::
      octetChars (n % 256))) =
    some (octetChars (n / 256 % 256) ++ '.' :: octetChars (n % 256))
    from by simp [expectDot]]
  simp only [Option.some_bind]
  rw [parseOctet_octet (n / 256 % 256) _ (by omega) (headNotDigit_dot _)]
  simp only [Option.some_bind]
  rw [show expectDot ('.' :: octetChars (n % 256)) =
    some (octetChars (n % 256)) from by simp [expectDot]]
  simp only [Option.some_bind]
  rw [show octetChars (n % 256) = octetChars (n % 256) ++ [] from
    (List.append_nil _).symm]
  rw [parseOctet_octet (n % 256) [] (by omega) headNotDigit_nil]
  simp only [Option.some_bind]
  rw [if_pos trivial]
  congr 1
  omega

theorem mem_ipChars_digit_or_dot (n : Nat) (hn : n < 2 ^ 32) (c : Char)
    (hc : c ∈ ipChars n) :
    isDigitC c = true ∨ c = '.' := by
  norm_num at hn
  unfold ipChars at hc
  have hoct : ∀ m ≤ 255, c ∈ octetChars m → isDigitC c = true :=
    fun m hm hcm => octetChars_digits m hm c hcm
  simp only [List.mem_append, List.mem_cons] at hc
  rcases hc with h | h | h
  · exact Or.inl (hoct _ (by omega) h)
  · exact Or.inr h
  · rcases h with h | h | h
    · exact Or.inl (hoct _ (by omega) h)
    · exact Or.inr h
    · rcases h with h | h | h
      · exact Or.inl (hoct _ (by omega) h)
      · exact Or.inr h
      · exact Or.inl (hoct _ (by omega) h)

theorem dash_not_mem_ipChars (n : Nat) (hn : n < 2 ^ 32) :
    ('-') ∉ ipChars n := by
  intro hc
  rcases mem_ipChars_digit_or_dot n hn _ hc with h | h
  · exact absurd h (by decide)
  · exact absurd h (by decide)

theorem splitFirst_append (sep : Char) (l r : List Char) (h : sep ∉ l) :
    splitFirst sep (l ++ sep :: r) = some (l, r) := by
  induction l with
  | nil => simp [splitFirst]
  | cons c cs ih =>
    simp only [List.mem_cons] at h
    push_neg at h
    rw [List.cons_append]
    rw [show splitFirst sep (c :: (cs ++ sep :: r)) =
      if c = sep then some ([], cs ++ sep :: r)
      else (splitFirst sep (cs ++ sep :: r)).map (fun p => (c :: p.1, p.2))
      from rfl]
    rw [if_neg (fun hc => h.1 hc.symm), ih h.2]
    rfl

/-- C9: for every well-formed IPv4 indicator (single address, CIDR, or
hyphenated range) whose parsed bounds are representable IPv4
addresses, re-serializing the parsed `[start, end]` pair in dotted-quad
`"start-end"` form and parsing again returns the same pair. -/
theorem range_from_indicator_roundtrip (s : String) (a b : Nat)
    (hp : rangeFromIndicator s = some (a, b))
    (ha : a < 2 ^ 32) (hb : b < 2 ^ 32) :
    rangeFromIndicator (mwIndicator a b) = some (a, b) := by
  unfold rangeFromIndicator mwIndicator
  show rangeFromIndicatorChars (ipChars a ++ '-' :: ipChars b) = some (a, b)
  unfold rangeFromIndicatorChars
  rw [splitFirst_append _ _ _ (dash_not_mem_ipChars a ha)]
  dsimp only
  rw [parseIPv4Chars_ipChars a ha]
  simp only [Option.some_bind]
  rw [parseIPv4Chars_ipChars b hb]
  rfl

/-- C9 witness: parsing `10.0.0.0/24` and re-serializing is stable. -/
theorem range_from_indicator_roundtrip_witness :
    rangeFromIndicator (mwIndicator 167772160 167772415) =
      some (167772160, 167772415) :=
  range_from_indicator_roundtrip "10.0.0.0/24" 167772160 167772415
    (by rfl) (by decide) (by decide)

/-! ## ipop.py: aggregator records and filtered_withdraw -/

/-- `utils.RESERVED_ATTRIBUTES`.  Modelled from the spec: the module is
not under the sources; the spec names set-union for `sources` and max
for `confidence` as the registered combiners. -/
def reservedAttr (k : String) : Option (Val → Val → Val) :=
  if k = "sources" then some (fun a b =>
    match a, b with
    | Val.list x, Val.list y => Val.list (x ++ y.filter (fun e => decide (e ∉ x)))
    | _, _ => b)
  else if k = "confidence" then some (fun a b =>
    match a, b with
    | Val.n x, Val.n y => Val.n (max x y)
    | _, _ => b)
  else Option.none

/-- The aggregator node state: the record table keyed by
`indicator + source`, and the interval store. -/
structure AggState : Type where
  table : List (String × Record)
  st : List STEntry
deriving DecidableEq

/-- `st.max_endpoint` for a 32-bit tree. -/
def maxEndpoint : Nat := 2 ^ 32 - 1

/-- `AggregateIPv4FT._endpoints_from_range`: nearest stored endpoint
at or below `start - 1`, and nearest strictly above
`min(end+1, max_endpoint)` (`include_start=False`).  Modelled from the
spec's `IntervalStore` interface (`query_endpoints` with `reverse`). -/
def endpointsFromRange (store : List STEntry) (start stop : Nat) :
    Option Nat × Option Nat :=
  (((endpointAddrs store).filter (fun x => decide (x ≤ start - 1))).max?,
   ((endpointAddrs store).filter
     (fun x => decide (min (stop + 1) maxEndpoint < x ∧
       x ≤ maxEndpoint))).min?)

/-- One step of the `_calc_indicator_value` merge loop over the keys
of a contributing record: reserved keys already present combine,
everything else overwrites. -/
def mergeIndicatorRecord (mv : Record) (v : Record) : Record :=
  v.foldl (fun acc kv =>
    match reservedAttr kv.1 with
    | some comb =>
      if (alget acc kv.1).isSome then
        alput acc kv.1 (comb (pyGet acc kv.1) kv.2)
      else alput acc kv.1 kv.2
    | Option.none => alput acc kv.1 kv.2) mv

/-- The `_id` index lookup: the first record whose `_id` is the given
id.  Modelled from the spec's `IndicatorTable` index interface. -/
def findByUid (tab : List (String × Record)) (uid : Nat) : Option Record :=
  (tab.find? (fun e => alget e.2 "_id" == some (Val.n uid))).map Prod.snd

/-- `AggregateIPv4FT._calc_indicator_value`: start from
`{sources: []}` and merge the record of every contributing id.
`Option.none` embeds the `TypeError` the source raises when an id has
no table record. -/
def calcIndicatorValue (tab : List (String × Record)) (uuids : Finset Nat) :
    Option Record :=
  (uuids.sort (· ≤ ·)).foldl
    (fun acc uid =>
      acc.bind (fun mv =>
        match findByUid tab uid with
        | some v => some (mergeIndicatorRecord mv v)
        | Option.none => Option.none))
    (some [("sources", Val.list [])])

/-- Range equality of the source's `MWUpdate.__eq__`: start and end
only, id sets ignored. -/
def sameRange (u v : MWUpdate) : Bool :=
  decide (u.start = v.start ∧ u.stop = v.stop)

/-- An `update` emission for an aggregated range. -/
def emitRangeUpdate (tab : List (String × Record)) (u : MWUpdate) :
    Option Emit :=
  (calcIndicatorValue tab u.uuids).map
    (fun mv => Emit.update (mwIndicator u.start u.stop) mv)

/-- `AggregateIPv4FT.filtered_withdraw`: an unknown
`(indicator, source)` pair returns immediately; otherwise delete the
record and the interval, diff the aggregated ranges over the search
window, and emit updates for added and id-changed ranges and withdraws
for removed ranges. -/
def filteredWithdraw (whitelists : List String) (state : AggState)
    (source indicator : String) (value : Record) :
    Option (AggState × List Emit) :=
  match alget state.table (indicator ++ source) with
  | Option.none => some (state, [])
  | some v =>
    let table2 := aldel state.table (indicator ++ source)
    (rangeFromIndicator indicator).bind (fun se =>
    let level := if source ∈ whitelists then WL_LEVEL else 1
    let ep := endpointsFromRange state.st se.1 se.2
    let lo := ep.1.getD 0
    let hi := ep.2.getD maxEndpoint
    let rangesb := calcIpranges state.st lo hi
    (match alget v "_id" with
     | some (Val.n uid) => some uid.toNat
     | _ => Option.none).bind (fun uid =>
    let st2 := state.st.erase ⟨uid, se.1, se.2, level⟩
    let rangesa := calcIpranges st2 lo hi
    let added := rangesa.filter
      (fun u => !rangesb.any (fun ou => sameRange u ou))
    let removed := rangesb.filter
      (fun u => !rangesa.any (fun ou => sameRange u ou))
    (added.mapM (emitRangeUpdate table2)).bind (fun ups1 =>
    let changed := (rangesa.filter
        (fun u => !added.any (fun ou => sameRange u ou))).flatMap
      (fun u : MWUpdate => (rangesb.filter
        (fun ou : MWUpdate =>
          sameRange u ou && decide (u.uuids ≠ ou.uuids))).map
        (fun _ => u))
    (changed.mapM (emitRangeUpdate table2)).map (fun ups2 =>
    let downs := removed.map
      (fun u : MWUpdate => Emit.withdraw (mwIndicator u.start u.stop))
    (⟨table2, st2⟩, ups1 ++ ups2 ++ downs)))))

/-- C8: a `filtered_withdraw` for an `(indicator, source)` pair with
no aggregator record is a silent no-op: the table and the interval
store are unchanged and nothing is emitted. -/
theorem filtered_withdraw_unknown_noop (whitelists : List String)
    (state : AggState) (source indicator : String) (value : Record)
    (h : alget state.table (indicator ++ source) = Option.none) :
    filteredWithdraw whitelists state source indicator value =
      some (state, []) := by
  unfold filteredWithdraw
  rw [h]

/-- C8 witness: withdrawing `10.0.0.1` from source `S1` on an empty
aggregator. -/
theorem filtered_withdraw_unknown_noop_witness :
    filteredWithdraw [] ⟨[], []⟩ "S1" "10.0.0.1" [] =
      some (⟨[], []⟩, []) :=
  filtered_withdraw_unknown_noop [] ⟨[], []⟩ "S1" "10.0.0.1" [] (by rfl)

/-! ## taxii.py: observable decoding -/

/-- A STIX property value: a plain string or a nested
`{value: ...}` dictionary (whose `value` may be missing). -/
inductive PyStr : Type where
  | plain : String → PyStr
  | nested : Option String → PyStr
deriving DecidableEq, Repr

/-- The `properties` dictionary of an observable object, restricted
to the keys `_decode_observable` reads. -/
structure ObsProps : Type where
  xsiType : Option String
  category : Option String
  isSource : Option Bool
  addressValue : Option PyStr
  value : Option PyStr
deriving DecidableEq, Repr

/-- The `object` entry of an observable dictionary. -/
structure ObsObject : Type where
  properties : Option ObsProps
deriving DecidableEq, Repr

/-- An observable as `_decode_observable` sees it: an optional idref,
an optional observable composition, and an optional object. -/
structure Observable : Type where
  idref : Option String
  obsComposition : Bool
  object : Option ObsObject
deriving DecidableEq, Repr

/-- The source's plain-or-nested string extraction: take the value if
it is a string, otherwise look up `value` inside it. -/
def pyStrValue : Option PyStr → Option String
  | some (PyStr.plain s) => some s
  | some (PyStr.nested (some v)) => some v
  | some (PyStr.nested Option.none) => Option.none
  | Option.none => Option.none

/-- `TaxiiClient._decode_observable` (lines 409-494 of `taxii.py`):
dispatch on `xsi:type` and build the result dictionary assignment by
assignment.  In the `AddressObjectType` branch the source assigns
`result['type'] = 'IPv6'` when the category is `ipv6-addr` and then
unconditionally assigns `result['type'] = 'IPv4'` on the next
statement, so the IPv6 assignment is always overwritten. -/
def decodeObservable (o : Observable) : Option Record :=
  match o.idref with
  | some r => some [("idref", Val.s r)]
  | Option.none =>
  if o.obsComposition then Option.none
  else match o.object with
  | Option.none => Option.none
  | some oo =>
  match oo.properties with
  | Option.none => Option.none
  | some op =>
  match op.xsiType with
  | Option.none => Option.none
  | some ot =>
  if ot = "DomainNameObjectType" then
    (pyStrValue op.value).map (fun ov =>
      alput (alput [] "type" (Val.s "domain")) "indicator" (Val.s ov))
  else if ot = "AddressObjectType" then
    let r1 :=
      if op.category = some "ipv6-addr" then
        alput [] "type" (Val.s "IPv6")
      else []
    let r2 := alput r1 "type" (Val.s "IPv4")
    let r3 :=
      match op.isSource with
      | some true => alput r2 "direction" (Val.s "inbound")
      | some false => alput r2 "direction" (Val.s "outbound")
      | Option.none => r2
    (pyStrValue op.addressValue).map (fun ov =>
      alput r3 "indicator" (Val.s ov))
  else if ot = "URIObjectType" then
    (pyStrValue op.value).map (fun ov =>
      alput (alput [] "type" (Val.s "URL")) "indicator" (Val.s ov))
  else Option.none

/-- C7: the code, evaluated on an Address observable with category
`ipv6-addr`, produces `type = IPv4` — the conditional IPv6 assignment
is dead because the next statement unconditionally overwrites it with
IPv4.  The direction mapping works as claimed. -/
theorem decode_address_ipv6_category_yields_ipv4 :
    (decodeObservable
      ⟨Option.none, false, some ⟨some ⟨some "AddressObjectType",
        some "ipv6-addr", Option.none,
        some (PyStr.plain "2001:db8::1"), Option.none⟩⟩⟩ =
      some [("type", Val.s "IPv4"),
            ("indicator", Val.s "2001:db8::1")]) ∧
    (decodeObservable
      ⟨Option.none, false, some ⟨some ⟨some "AddressObjectType",
        Option.none, some true,
        some (PyStr.plain "1.2.3.4"), Option.none⟩⟩⟩ =
      some [("type", Val.s "IPv4"), ("direction", Val.s "inbound"),
            ("indicator", Val.s "1.2.3.4")]) ∧
    (decodeObservable
      ⟨Option.none, false, some ⟨some ⟨some "AddressObjectType",
        Option.none, some false,
        some (PyStr.plain "1.2.3.4"), Option.none⟩⟩⟩ =
      some [("type", Val.s "IPv4"), ("direction", Val.s "outbound"),
            ("indicator", Val.s "1.2.3.4")]) := by
  refine ⟨by rfl, by rfl, by rfl⟩

end Minemeld
